import Mathlib

/-!
Verification of the fixed-point decimal arithmetic engine (`go/mysql/decimal`
style package): a shallow embedding of the Go source into Lean 4, followed by
theorems settling the specification claims about parsing, arithmetic,
rounding, clamping and formatting.

Modelling conventions:
* `big.Int` values become unbounded `Int`; a nil (lazily-uninitialized)
  magnitude is semantically zero, so it is represented by `0` directly.
* The `exp` field is a Go `int32`; it is carried as an `Int`, and every Go
  `int32` arithmetic step that may wrap is routed through `toInt32`
  (two's-complement wrap-around), and Go's `uint64(x)` conversion of an
  `int32` through `u64`.
* `big.Int.Quo`/`Rem` are truncated division: `Int.tdiv`/`Int.tmod`;
  `big.Int.DivMod` is Euclidean division: `Int.ediv`/`Int.emod`.
* Go `panic` paths are modelled as `none` / error results.
* Go strings/byte slices are `List Char`.
-/

deriving instance DecidableEq for Except

namespace Vitess

/-- 2^31, bound of the Go int32 range. -/
def i32bound : Int := 2 ^ 31

/-- Go int32 wrap-around conversion of a mathematical integer
(two's complement, as Go defines signed overflow for conversions). -/
def toInt32 (x : Int) : Int := (x + i32bound) % (2 ^ 32) - i32bound

/-- Go `uint64(x)` where `x` is an int32-ranged value (used in
`bigPow10(uint64(e))`): reduces modulo 2^64 and reads off a natural. -/
def u64 (x : Int) : Nat := (x % (2 ^ 64)).toNat

/-- `Decimal` represents a fixed-point decimal: number = value * 10 ^ exp.
`value` is the arbitrary-precision signed magnitude (`*big.Int`, nil ≡ 0),
`exp` the 32-bit signed exponent. -/
structure Decimal where
  value : Int
  exp : Int
deriving DecidableEq, Repr

/-- `New` returns a new fixed-point decimal, value * 10 ^ exp. -/
def New (value : Int) (exp : Int) : Decimal := ⟨value, exp⟩

/-- The package-level `Zero` constant: `New(0, 1)`. -/
def Zero : Decimal := New 0 1

/-- `divisionPrecision`, the number of decimal places used by the default
division when the quotient is not exact. -/
def divisionPrecision : Int := 16

/-- `bigPow10(n)` returns 10^n; the Go code reads a precomputed table for
n < 20 and extends it by exponentiation beyond, which computes exactly
10^n in every case. -/
def bigPow10 (n : Nat) : Int := 10 ^ n

namespace Decimal

/-- The rational number denoted by a Decimal: value * 10 ^ exp. -/
def toRat (d : Decimal) : ℚ := (d.value : ℚ) * (10 : ℚ) ^ d.exp

/-- `Sign` of the magnitude (nil magnitude reports 0). -/
def Sign (d : Decimal) : Int := Int.sign d.value

/-- `IsZero`. -/
def IsZero (d : Decimal) : Prop := d.Sign = 0

/-- `rescale` changes the exponent, truncating (`Quo`) when digits are
dropped and multiplying by a power of ten when digits are added.  The Go
source computes `exp - d.exp` in int32 (which may wrap) and converts the
difference to `uint64` before indexing `bigPow10`. -/
def rescale (d : Decimal) (exp : Int) : Decimal :=
  if exp > d.exp then
    ⟨Int.tdiv d.value (bigPow10 (u64 (toInt32 (exp - d.exp)))), exp⟩
  else if exp < d.exp then
    ⟨d.value * bigPow10 (u64 (toInt32 (d.exp - exp))), exp⟩
  else
    ⟨d.value, exp⟩

/-- `abs` returns the absolute value (the source returns `d` unchanged when
the sign is non-negative). -/
def abs (d : Decimal) : Decimal :=
  if d.Sign ≥ 0 then d else ⟨|d.value|, d.exp⟩

/-- `Neg` returns a sign-flipped copy. -/
def Neg (d : Decimal) : Decimal := ⟨-d.value, d.exp⟩

/-- Package-level `min` on int32. -/
def minExp (x y : Int) : Int := if x ≥ y then y else x

/-- `RescalePair` rescales two decimals to their minimal common exponent. -/
def RescalePair (d1 d2 : Decimal) : Decimal × Decimal :=
  if d1.exp = d2.exp then (d1, d2)
  else
    let baseScale := minExp d1.exp d2.exp
    if baseScale ≠ d1.exp then (d1.rescale baseScale, d2)
    else (d1, d2.rescale baseScale)

/-- `big.Int.Cmp` on integers. -/
def intCmp (x y : Int) : Int := if x < y then -1 else if x = y then 0 else 1

/-- `Cmp` compares two decimals, with a same-exponent fast path. -/
def Cmp (d d2 : Decimal) : Int :=
  if d.exp = d2.exp then intCmp d.value d2.value
  else
    let p := RescalePair d d2
    intCmp p.1.value p.2.value

/-- `CmpAbs` compares magnitudes, ignoring signs. -/
def CmpAbs (d d2 : Decimal) : Int :=
  if d.exp = d2.exp then intCmp |d.value| |d2.value|
  else
    let p := RescalePair d d2
    intCmp |p.1.value| |p.2.value|

/-- `Add` returns d + d2 at the minimal common exponent. -/
def Add (d d2 : Decimal) : Decimal :=
  let p := RescalePair d d2
  ⟨p.1.value + p.2.value, p.1.exp⟩

/-- `sub` returns d - d2 (no zero re-canonicalization). -/
def sub (d d2 : Decimal) : Decimal :=
  let p := RescalePair d d2
  ⟨p.1.value - p.2.value, p.1.exp⟩

/-- `Sub` returns d - d2, normalizing an exactly-zero result to exponent 0. -/
def Sub (d d2 : Decimal) : Decimal :=
  let rd := d.sub d2
  if rd.value = 0 then ⟨rd.value, 0⟩ else rd

/-- `mul` returns d * d2, failing fatally (`none`) when the exponent sum
(computed in int64, hence exactly) leaves the int32 range. -/
def mul (d d2 : Decimal) : Option Decimal :=
  let expInt64 := d.exp + d2.exp
  if expInt64 > i32bound - 1 ∨ expInt64 < -i32bound then none
  else some ⟨d.value * d2.value, expInt64⟩

/-- `Mul` short-circuits to the `Zero` constant when either operand has a
zero magnitude and multiplies otherwise. -/
def Mul (d d2 : Decimal) : Option Decimal :=
  if d.Sign = 0 ∨ d2.Sign = 0 then some Zero else mul d d2

/-- `roundBase10(digits) = (digits + 8) / 9` in int32 arithmetic (Go integer
division truncates toward zero). -/
def roundBase10 (digits : Int) : Int := Int.tdiv (toInt32 (digits + 8)) 9

/-- `quoRem` does division with remainder at a caller-chosen precision.
The Go source computes `e := int64(d.exp - d2.exp - scale)` — the inner
subtraction is int32 arithmetic that wraps before the widening conversion,
so the subsequent `e > MaxInt32 || e < MinInt32` panic-check can never
fire.  Division by a zero divisor panics (`none`). -/
def quoRem (d d2 : Decimal) (precision : Int) : Option (Decimal × Decimal) :=
  if d2.value = 0 then none
  else
    let scale := toInt32 (-precision)
    let e := toInt32 (d.exp - d2.exp - scale)
    if e > i32bound - 1 ∨ e < -i32bound then none
    else if e < 0 then
      let bb := d2.value * 10 ^ (-e).toNat
      some (⟨Int.tdiv d.value bb, scale⟩, ⟨Int.tmod d.value bb, d.exp⟩)
    else
      let aa := d.value * 10 ^ e.toNat
      some (⟨Int.tdiv aa d2.value, scale⟩,
            ⟨Int.tmod aa d2.value, toInt32 (scale + d2.exp)⟩)

/-- `divRound` divides and rounds to a given precision, deciding the
rounding step by comparing `2*|r|` (rescaled) against `|d2|`. -/
def divRound (d d2 : Decimal) (precision : Int) : Option Decimal :=
  (quoRem d d2 precision).map fun qr =>
    let q := qr.1
    let r := qr.2
    let rv2 : Int := |r.value| * 2
    let r2 : Decimal := ⟨rv2, toInt32 (r.exp + precision)⟩
    let c := r2.Cmp d2.abs
    if c < 0 then q
    else if Int.sign d.value * Int.sign d2.value < 0 then
      q.sub (New 1 (toInt32 (-precision)))
    else
      q.Add (New 1 (toInt32 (-precision)))

/-- `Div` derives a result scale from both operands' scales (MySQL's
division-scale rule) and then divides; the quotient is taken from `quoRem`
and the remainder discarded.  A zero dividend short-circuits to `Zero`
without looking at the divisor. -/
def Div (d d2 : Decimal) (scaleIncr : Int) : Option Decimal :=
  if d.Sign = 0 then some Zero
  else
    let s1 := toInt32 (-d.exp)
    let s2 := toInt32 (-d2.exp)
    let fracLeft := roundBase10 s1
    let fracRight := roundBase10 s2
    let scaleIncr2 := toInt32 (scaleIncr - (fracLeft - s1 + fracRight - s2))
    let scaleIncr3 := if scaleIncr2 < 0 then 0 else scaleIncr2
    let scale := toInt32 (roundBase10 (toInt32 (fracLeft + fracRight + scaleIncr3)) * 9)
    (quoRem d d2 scale).map Prod.fst

/-- `div` rounds to the fixed default `divisionPrecision`. -/
def div (d d2 : Decimal) : Option Decimal := d.divRound d2 divisionPrecision

/-- `truncate` drops all digits after the given precision (never rounds). -/
def truncate (d : Decimal) (precision : Int) : Decimal :=
  if precision ≥ 0 ∧ -precision > d.exp then d.rescale (-precision) else d

/-- `mod` returns d % d2 via `d - d2 * truncate(divRound(d, d2, -d.exp+1))`.
It inherits the division-by-zero panic from `divRound` and the
exponent-overflow panic from `mul`. -/
def mod (d d2 : Decimal) : Option Decimal :=
  match d.divRound d2 (toInt32 (-d.exp + 1)) with
  | none => none
  | some quo0 =>
    match d2.mul (quo0.truncate 0) with
    | none => none
    | some prod => some (d.sub prod)

/-- `Round` rounds to `places` decimal places: truncate to one extra digit,
add/subtract five at that digit, reduce by one digit with Euclidean
`DivMod`, and push a negative non-exact quotient one step further away
from zero. -/
def Round (d : Decimal) (places : Int) : Decimal :=
  if d.exp = toInt32 (-places) then d
  else
    let ret := d.rescale (toInt32 (-places - 1))
    let v1 := if ret.value < 0 then ret.value - 5 else ret.value + 5
    let q := v1 / 10
    let m := v1 % 10
    let q2 := if q < 0 ∧ m ≠ 0 then q + 1 else q
    ⟨q2, toInt32 (ret.exp + 1)⟩

end Decimal

/-- The package-level `limitsBigTab` table: the largest magnitude with the
given number of decimal digits, for 0 ≤ digits ≤ 19.  Built once at
process start; `Clamp` below threads it explicitly so that mutation of the
shared entries is observable. -/
def limitsBigTab : List Int :=
  [0, 9, 99, 999, 9999, 99999, 999999, 9999999, 99999999, 999999999,
   9999999999, 99999999999, 999999999999, 9999999999999, 99999999999999,
   999999999999999, 9999999999999999, 99999999999999999,
   999999999999999999, 9999999999999999999]

/-- `largestForm(integral, fractional)` over an explicit table state.
Returns the limit value, its exponent, and — when the value was read from
the shared table — the index of the aliased entry.  The Go code computes
`digits := int(integral + fractional)` in int32, indexes the table for
`digits < 20` (a negative count panics with an index error), parses a
prefix of a 350-nines literal for `digits < 350`, and panics beyond. -/
def largestForm (integral fractional : Int) (tab : List Int) :
    Option (Int × Int × Option Nat) :=
  let digits := toInt32 (integral + fractional)
  if digits < 0 then none
  else if digits < 20 then some (tab.getD digits.toNat 0, -fractional, some digits.toNat)
  else if digits < 350 then some (10 ^ digits.toNat - 1, -fractional, none)
  else none

namespace Decimal

/-- `Clamp` saturates `d` to the largest form for the digit budget.  When
the operand is negative and over the limit the Go code calls
`limit.NegInPlace()`, which negates the underlying `big.Int` in place —
and when the limit was read from `limitsBigTab`, that negates the shared
table entry.  The table is threaded as explicit state to expose this. -/
def Clamp (d : Decimal) (integral fractional : Int) (tab : List Int) :
    Option (Decimal × List Int) :=
  match largestForm integral fractional tab with
  | none => none
  | some (lv, lexp, idx) =>
    let limit : Decimal := ⟨lv, lexp⟩
    if d.CmpAbs limit ≤ 0 then some (d, tab)
    else if d.value < 0 then
      let tab2 := match idx with
        | some i => tab.set i (-(tab.getD i 0))
        | none => tab
      some (⟨-lv, lexp⟩, tab2)
    else some (limit, tab)

end Decimal

/-! ## Formatting -/

/-- Decimal digit to ASCII character. -/
def digitChar (n : Nat) : Char :=
  match n with
  | 0 => '0' | 1 => '1' | 2 => '2' | 3 => '3' | 4 => '4'
  | 5 => '5' | 6 => '6' | 7 => '7' | 8 => '8' | _ => '9'

/-- Decimal rendering of a natural number, as `big.Int.Append` produces for
a non-negative value (most significant digit first, `"0"` for zero). -/
def decDigits (n : Nat) : List Char :=
  if n = 0 then ['0'] else ((Nat.digits 10 n).map digitChar).reverse

/-- Decimal rendering of an integer, as `big.Int.Append` produces
(`'-'` prefix for a negative value). -/
def intRepr (v : Int) : List Char :=
  (if v < 0 then ['-'] else []) ++ decDigits v.natAbs

/-- Trailing-`'0'` trimming of the fractional digit run. -/
def trimZeros (l : List Char) : List Char :=
  (l.reverse.dropWhile (fun c => c = '0')).reverse

namespace Decimal

/-- `format`: the shared formatter.  An exponent ≥ 0 value is rescaled to
integral form; otherwise the digit string is split at the decimal point,
left-padding with zeros when the magnitude is shorter than the fractional
width; `trimTrailingZeros` selects the trailing-zero trimming. -/
def format (d : Decimal) (trimTrailingZeros : Bool) : List Char :=
  if 0 ≤ d.exp then intRepr (d.rescale 0).value
  else
    let rawfmt := decDigits d.value.natAbs
    let sign : List Char := if d.value < 0 then ['-'] else []
    let fexp : Nat := (-d.exp).toNat
    let ip : List Char :=
      if fexp < rawfmt.length then rawfmt.take (rawfmt.length - fexp) else ['0']
    let frac0 : List Char :=
      if fexp < rawfmt.length then rawfmt.drop (rawfmt.length - fexp)
      else List.replicate (fexp - rawfmt.length) '0' ++ rawfmt
    let frac := if trimTrailingZeros then trimZeros frac0 else frac0
    sign ++ ip ++ (if 0 < frac.length then '.' :: frac else [])

/-- `String()` — the canonical formatter — calls `format` with
`trimTrailingZeros = true`. -/
def String (d : Decimal) : List Char := d.format true

/-- `StringMySQL()` calls `format` with `trimTrailingZeros = false`. -/
def StringMySQL (d : Decimal) : List Char := d.format false

end Decimal

/-! ## Parsing -/

/-- Go's digit test `'0' <= c && c <= '9'`. -/
def isDig (c : Char) : Bool := '0' ≤ c && c ≤ '9'

/-- Numeric value of an ASCII digit (`c - '0'`). -/
def digitVal (c : Char) : Nat := c.toNat - 48

/-- The three failures of `parseDecimal64`: a second dot, a non-digit
character, or 64-bit accumulator overflow (`errOverflow`). -/
inductive P64Err where
  | tooManyDots
  | unexpectedChar (c : Char)
  | overflow
deriving DecidableEq, Repr

/-- `cutoff = math.MaxUint64/10 + 1`, the pre-multiplication overflow guard. -/
def cutoff : Nat := 18446744073709551615 / 10 + 1

/-- The accumulation loop of `parseDecimal64`: walks the bytes carrying the
current index, the dot position (if seen) and the uint64 accumulator, with
Go's wrap-around semantics made explicit via `% 2^64`. -/
def p64loop : List Char → Nat → Option Nat → Nat → Except P64Err (Nat × Option Nat)
  | [], _, dot, n => .ok (n, dot)
  | c :: cs, i, dot, n =>
    if c = '.' then
      match dot with
      | some _ => .error .tooManyDots
      | none => p64loop cs (i + 1) (some i) n
    else if isDig c then
      if cutoff ≤ n then .error .overflow
      else
        let nm := (n * 10) % (2 ^ 64)
        let n1 := (nm + digitVal c) % (2 ^ 64)
        if n1 < nm then .error .overflow
        else p64loop cs (i + 1) dot n1
    else .error (.unexpectedChar c)

/-- `parseDecimal64`: 64-bit fast-path parse of an unsigned digit run with
at most one dot; the exponent is derived from the dot position (the Go
source converts `len(s) - dot - 1` to int32). -/
def parseDecimal64 (s : List Char) : Except P64Err Decimal :=
  match p64loop s 0 none 0 with
  | .error e => .error e
  | .ok (n, dot) =>
    let exp : Int :=
      match dot with
      | none => 0
      | some d => -(toInt32 ((s.length : Int) - (d : Int) - 1))
    .ok ⟨(n : Int), exp⟩

/-- `big.Int.SetString` with base 10: an optional sign followed by a
non-empty all-digit run. -/
def digitsToNat (t : List Char) : Nat :=
  t.foldl (fun n c => n * 10 + digitVal c) 0

/-- `big.Int.SetString(t, 10)` — `none` models `ok == false`. -/
def setStringInt (t : List Char) : Option Int :=
  match t with
  | [] => none
  | c :: rest =>
    if c = '+' then
      if rest ≠ [] ∧ rest.all isDig then some (digitsToNat rest) else none
    else if c = '-' then
      if rest ≠ [] ∧ rest.all isDig then some (-(digitsToNat rest : Int)) else none
    else
      if (c :: rest).all isDig then some (digitsToNat (c :: rest)) else none

/-- Index of the first `'.'` (`bytes.IndexByte`). -/
def dotIndex (s : List Char) : Option Nat := s.findIdx? (fun c => c = '.')

/-- Error text helpers, mirroring the `fmt.Errorf` patterns of the source
(each one embeds the original input). -/
def msgTooShort (original : List Char) : List Char :=
  "can't convert \x22".toList ++ original ++ "\x22 to decimal: too short".toList

def renderP64Err : P64Err → List Char
  | .tooManyDots => "too many .s".toList
  | .unexpectedChar c => "unexpected character '".toList ++ [c] ++ "'".toList
  | .overflow => "overflow".toList

def msgWrap (original : List Char) (e : P64Err) : List Char :=
  "can't convert ".toList ++ original ++ " to decimal: ".toList ++ renderP64Err e

def msgDots (original : List Char) : List Char :=
  "can't convert ".toList ++ original ++ " to decimal: too many .s".toList

def msgCant (original : List Char) : List Char :=
  "can't convert ".toList ++ original ++ " to decimal".toList

/-- The arbitrary-precision fallback of `NewFromMySQL`: checks for a second
dot, strips the (first) dot out of the digit run, derives the exponent from
the dot position (through Go's int32 conversions), and hands the result to
`big.Int.SetString`; the sign collected earlier is applied at the end. -/
def slowPath (original s : List Char) (neg : Bool) : Except (List Char) Vitess.Decimal :=
  let parsed : Except (List Char) (List Char × Int) :=
    match dotIndex s with
    | some p =>
      if '.' ∈ s.drop (p + 1) then .error (msgDots original)
      else .ok (s.take p ++ s.drop (p + 1),
                toInt32 (-(toInt32 ((s.drop (p + 1)).length))))
    | none => .ok (s, 0)
  match parsed with
  | .error e => .error e
  | .ok (intString, exp) =>
    match setStringInt intString with
    | none => .error (msgCant original)
    | some v => .ok ⟨if neg then -v else v, exp⟩

/-- Sign stripping at the head of `NewFromMySQL`. -/
def stripSign (input : List Char) : Bool × List Char :=
  match input with
  | [] => (false, input)
  | c :: rest =>
    if c = '+' then (false, rest)
    else if c = '-' then (true, rest)
    else (false, input)

/-- `NewFromMySQL`: the fixed/wire-format parser.  Strips one sign byte,
rejects an empty remainder, tries the 64-bit fast path when at most 18
bytes remain (falling back only on `errOverflow`), and otherwise uses the
arbitrary-precision path. -/
def NewFromMySQL (input : List Char) : Except (List Char) Vitess.Decimal :=
  let ns := stripSign input
  let neg := ns.1
  let s := ns.2
  if s.length = 0 then .error (msgTooShort input)
  else if s.length ≤ 18 then
    match parseDecimal64 s with
    | .ok dec => .ok (if neg then ⟨-dec.value, dec.exp⟩ else dec)
    | .error .overflow => slowPath input s neg
    | .error e => .error (msgWrap input e)
  else slowPath input s neg

/-! ## Basic facts about the int32 embedding and `toRat` -/

theorem toInt32_eq_self {x : Int} (h1 : -i32bound ≤ x) (h2 : x < i32bound) :
    toInt32 x = x := by
  unfold toInt32 i32bound at *
  rw [Int.emod_eq_of_lt (by omega) (by omega)]
  omega

theorem u64_eq_toNat {x : Int} (h1 : 0 ≤ x) (h2 : x < 2 ^ 64) :
    u64 x = x.toNat := by
  unfold u64
  rw [Int.emod_eq_of_lt (by omega) (by omega)]

theorem ten_zpow_pos (e : Int) : 0 < (10 : ℚ) ^ e :=
  zpow_pos (by norm_num) e

theorem ten_zpow_ne_zero (e : Int) : (10 : ℚ) ^ e ≠ 0 :=
  ne_of_gt (ten_zpow_pos e)

theorem ten_zpow_add (a b : Int) : (10 : ℚ) ^ (a + b) = 10 ^ a * 10 ^ b :=
  zpow_add₀ (by norm_num) a b

namespace Decimal

theorem toRat_mk (v e : Int) : toRat ⟨v, e⟩ = (v : ℚ) * 10 ^ e := rfl

/-- Rescaling downward (to a smaller exponent) multiplies the magnitude by
the exact power of ten, provided the int32 difference does not wrap. -/
theorem rescale_down (d : Decimal) (E : Int) (hE : E ≤ d.exp)
    (hlt : d.exp - E < i32bound) :
    d.rescale E = ⟨d.value * 10 ^ (d.exp - E).toNat, E⟩ := by
  unfold rescale
  rcases eq_or_lt_of_le hE with h | h
  · subst h
    simp
  · rw [if_neg (by omega), if_pos h, bigPow10,
      toInt32_eq_self (by omega) (by omega),
      u64_eq_toNat (by omega) (by unfold i32bound at hlt; omega)]

theorem toRat_rescale_down (d : Decimal) (E : Int) (hE : E ≤ d.exp)
    (hlt : d.exp - E < i32bound) :
    (d.rescale E).toRat = d.toRat := by
  rw [rescale_down d E hE hlt, toRat_mk, toRat]
  push_cast
  rw [mul_assoc, ← zpow_natCast (10 : ℚ) (d.exp - E).toNat,
    Int.toNat_of_nonneg (by omega), ← ten_zpow_add]
  ring_nf

/-- `RescalePair` aligns both operands at the minimum exponent without
changing either value, provided the int32 exponent difference cannot
wrap. -/
theorem RescalePair_spec (d1 d2 : Decimal) (h : |d1.exp - d2.exp| < i32bound) :
    (RescalePair d1 d2).1.exp = minExp d1.exp d2.exp ∧
    (RescalePair d1 d2).2.exp = minExp d1.exp d2.exp ∧
    (RescalePair d1 d2).1.toRat = d1.toRat ∧
    (RescalePair d1 d2).2.toRat = d2.toRat := by
  rw [abs_lt] at h
  unfold RescalePair minExp
  by_cases heq : d1.exp = d2.exp
  · simp [heq]
  · rw [if_neg heq]
    by_cases hge : d1.exp ≥ d2.exp
    · have hne : (if d1.exp ≥ d2.exp then d2.exp else d1.exp) ≠ d1.exp := by
        rw [if_pos hge]; omega
      rw [if_pos hne, if_pos hge]
      have hr := rescale_down d1 d2.exp (by omega) (by omega)
      refine ⟨by rw [hr], rfl, toRat_rescale_down d1 d2.exp (by omega) (by omega), rfl⟩
    · have hne : ¬ ((if d1.exp ≥ d2.exp then d2.exp else d1.exp) ≠ d1.exp) := by
        rw [if_neg hge]; omega
      rw [if_neg hne, if_neg hge]
      exact ⟨rfl, by rw [(rescale_down d2 d1.exp (by omega) (by omega))],
        rfl, toRat_rescale_down d2 d1.exp (by omega) (by omega)⟩

theorem intCmp_neg_iff (x y : Int) : intCmp x y < 0 ↔ x < y := by
  unfold intCmp
  split_ifs with h1 h2 <;> simp [h1]

theorem intCmp_zero_iff (x y : Int) : intCmp x y = 0 ↔ x = y := by
  unfold intCmp
  split_ifs with h1 h2
  · exact iff_of_false (by decide) (by omega)
  · simp [h2]
  · exact iff_of_false (by decide) (by omega)

/-- `Cmp` decides the order of the denoted rationals (no-wrap range). -/
theorem Cmp_lt_iff (d d2 : Decimal) (h : |d.exp - d2.exp| < i32bound) :
    (Cmp d d2 < 0 ↔ d.toRat < d2.toRat) := by
  unfold Cmp
  by_cases heq : d.exp = d2.exp
  · rw [if_pos heq, intCmp_neg_iff]
    unfold toRat
    rw [heq, mul_lt_mul_right (ten_zpow_pos _), Int.cast_lt]
  · rw [if_neg heq]
    obtain ⟨he1, he2, hv1, hv2⟩ := RescalePair_spec d d2 h
    rw [intCmp_neg_iff, ← hv1, ← hv2]
    unfold toRat
    rw [he1, he2, mul_lt_mul_right (ten_zpow_pos _), Int.cast_lt]

end Decimal

/-! ## Integer division helpers -/

theorem Int.neg_tmod' (a b : Int) : (-a).tmod b = -(a.tmod b) := by
  rw [Int.tmod_def, Int.tmod_def, Int.neg_tdiv]
  ring

theorem tmod_abs_lt (A B : Int) (hB : B ≠ 0) : |Int.tmod A B| < |B| := by
  rcases le_or_lt 0 A with hA | hA
  · rcases le_or_lt 0 B with hB' | hB'
    · rw [abs_of_nonneg (Int.tmod_nonneg _ hA), abs_of_nonneg hB']
      exact Int.tmod_lt_of_pos A (by omega)
    · rw [abs_of_nonneg (Int.tmod_nonneg _ hA), abs_of_neg hB',
        show Int.tmod A B = Int.tmod A (-(-B)) from by rw [neg_neg],
        Int.tmod_neg]
      exact Int.tmod_lt_of_pos A (by omega)
  · have h' : |Int.tmod (-A) B| < |B| := by
      rcases le_or_lt 0 B with hB' | hB'
      · rw [abs_of_nonneg (Int.tmod_nonneg _ (by omega)), abs_of_nonneg hB']
        exact Int.tmod_lt_of_pos (-A) (by omega)
      · rw [abs_of_nonneg (Int.tmod_nonneg _ (by omega)), abs_of_neg hB',
          show Int.tmod (-A) B = Int.tmod (-A) (-(-B)) from by rw [neg_neg],
          Int.tmod_neg]
        exact Int.tmod_lt_of_pos (-A) (by omega)
    rwa [Int.neg_tmod', abs_neg] at h'

theorem tmod_nonpos_of_nonpos {A : Int} (B : Int) (hA : A ≤ 0) :
    Int.tmod A B ≤ 0 := by
  have : Int.tmod A B = -(Int.tmod (-A) B) := by rw [← Int.neg_tmod', neg_neg]
  rw [this]
  have := Int.tmod_nonneg B (show 0 ≤ -A by omega)
  omega

/-- Truncated division approximates the exact quotient from below in
absolute value, within one unit. -/
theorem tdiv_trunc (A B : Int) (hB : B ≠ 0) :
    |(A : ℚ) / B - Int.tdiv A B| < 1 ∧ |(Int.tdiv A B : ℚ)| ≤ |(A : ℚ) / B| := by
  have hBQ : (B : ℚ) ≠ 0 := Int.cast_ne_zero.mpr hB
  constructor
  · have hid : (A : ℚ) = B * Int.tdiv A B + Int.tmod A B := by
      exact_mod_cast (Int.tdiv_add_tmod A B).symm
    rw [hid]
    field_simp
    rw [abs_div]
    rw [div_lt_one (by positivity)]
    exact_mod_cast tmod_abs_lt A B hB
  · have h1 : |(Int.tdiv A B : ℚ)| = ((A.natAbs / B.natAbs : ℕ) : ℚ) := by
      rw [← Int.cast_abs, Int.abs_eq_natAbs, Int.natAbs_tdiv]
      push_cast
      rfl
    have h2 : |(A : ℚ) / B| = (A.natAbs : ℚ) / (B.natAbs : ℚ) := by
      rw [abs_div, Int.cast_natAbs, Int.cast_natAbs]
      push_cast
      rfl
    rw [h1, h2]
    rw [le_div_iff₀ (by positivity)]
    exact_mod_cast Nat.div_mul_le_self A.natAbs B.natAbs

/-! ## `quoRem` alignment -/

namespace Decimal

/-- Within the int32-safe range, `quoRem` aligns dividend and divisor to a
common scale `s` and divides the resulting integers `A`, `B` with
truncation; the quotient carries exponent `-p` and the remainder exponent
`-s`.  This is the workhorse behind the division law, `divRound` and
`Div`. -/
theorem quoRem_aligned (d d2 : Decimal) (p : Int) (hb : d2.value ≠ 0)
    (hp1 : -i32bound < p) (hp2 : p < i32bound)
    (he1 : -i32bound ≤ d.exp - d2.exp + p) (he2 : d.exp - d2.exp + p < i32bound)
    (hr1 : -i32bound ≤ d2.exp - p) (hr2 : d2.exp - p < i32bound) :
    ∃ A B s : Int,
      B ≠ 0 ∧
      quoRem d d2 p = some (⟨Int.tdiv A B, -p⟩, ⟨Int.tmod A B, -s⟩) ∧
      (A : ℚ) = d.toRat * 10 ^ s ∧
      (B : ℚ) = d2.toRat * 10 ^ (s - p) ∧
      Int.sign A = Int.sign d.value ∧ Int.sign B = Int.sign d2.value ∧
      (s = -d.exp ∨ s = p - d2.exp) := by
  have hsc : toInt32 (-p) = -p := toInt32_eq_self (by omega) (by omega)
  have he : toInt32 (d.exp - d2.exp - -p) = d.exp - d2.exp + p := by
    rw [show d.exp - d2.exp - -p = d.exp - d2.exp + p by ring]
    exact toInt32_eq_self he1 he2
  set e := d.exp - d2.exp + p with hedef
  have hten : ((10 : ℤ) : ℚ) = (10 : ℚ) := by norm_num
  by_cases hcase : e < 0
  · refine ⟨d.value, d2.value * 10 ^ (-e).toNat, -d.exp, ?_, ?_, ?_, ?_, ?_, ?_,
      Or.inl rfl⟩
    · have : (0 : ℤ) < 10 ^ (-e).toNat := pow_pos (by norm_num) _
      intro hcon
      rcases mul_eq_zero.mp hcon with h | h
      · exact hb h
      · omega
    · unfold quoRem
      rw [if_neg hb]
      simp only [hsc, he]
      rw [if_neg (by unfold i32bound at *; omega), if_pos hcase]
      rw [neg_neg]
    · rw [toRat]
      rw [mul_assoc, ← ten_zpow_add]
      simp
    · rw [toRat]
      push_cast
      rw [← zpow_natCast (10 : ℚ) (-e).toNat, Int.toNat_of_nonneg (by omega)]
      rw [mul_assoc, ← ten_zpow_add]
      congr 2
      omega
    · rfl
    · rw [Int.sign_mul]
      have : Int.sign ((10 : ℤ) ^ (-e).toNat) = 1 :=
        Int.sign_eq_one_of_pos (pow_pos (by norm_num) _)
      rw [this, mul_one]
  · refine ⟨d.value * 10 ^ e.toNat, d2.value, p - d2.exp, hb, ?_, ?_, ?_, ?_, rfl,
      Or.inr rfl⟩
    · unfold quoRem
      rw [if_neg hb]
      simp only [hsc, he]
      rw [if_neg (by unfold i32bound at *; omega), if_neg hcase]
      have h32 : toInt32 (-p + d2.exp) = -p + d2.exp :=
        toInt32_eq_self (by omega) (by omega)
      rw [h32]
      have hexp : -(p - d2.exp) = -p + d2.exp := by ring
      rw [hexp]
    · rw [toRat]
      push_cast
      rw [← zpow_natCast (10 : ℚ) e.toNat, Int.toNat_of_nonneg (by omega)]
      rw [mul_assoc, ← ten_zpow_add]
      congr 2
      omega
    · rw [toRat]
      rw [mul_assoc, ← ten_zpow_add]
      ring_nf
    · rw [Int.sign_mul]
      have : Int.sign ((10 : ℤ) ^ e.toNat) = 1 :=
        Int.sign_eq_one_of_pos (pow_pos (by norm_num) _)
      rw [this, mul_one]

end Decimal

/-! ## Claim C1: the `quoRem` division law and the int32 wrap (code bug). -/

/-- Claim C1 (code bug): at dividend `1e2147483647`, divisor `1`,
precision `10`, the int32 subtraction `d.exp - d2.exp - scale` inside
`quoRem` wraps around (the int64 overflow panic-check right after it is
dead code), the branch taken is the wrong one, and the returned remainder
is the entire dividend — astronomically larger than the documented bound
`|d2| * 10^(-10)`.  The code's own doc comment asserts the bound
unconditionally, and its (unreachable) panic shows the intent to abort
instead. -/
theorem C1_quoRem_wrap_violates_law :
    Decimal.quoRem ⟨1, 2147483647⟩ ⟨1, 0⟩ 10 =
      some (⟨0, -10⟩, ⟨1, 2147483647⟩) ∧
    ¬ (|Decimal.toRat ⟨1, 2147483647⟩| <
        |Decimal.toRat ⟨1, 0⟩| * (10 : ℚ) ^ (-10 : ℤ)) := by
  constructor
  · unfold Decimal.quoRem
    rw [if_neg (by decide)]
    have hsc : toInt32 (-10) = -10 := by decide
    have he : toInt32 ((2147483647 : Int) - 0 - -10) = -2147483639 := by decide
    simp only [hsc, he]
    rw [if_neg (by decide), if_pos (by decide)]
    have hb : (1 : Int) < 1 * 10 ^ ((-(-2147483639 : Int)).toNat) := by
      rw [one_mul]
      exact one_lt_pow₀ (by norm_num) (by norm_num)
    rw [Int.tdiv_eq_zero_of_lt (by norm_num) hb, Int.tmod_eq_of_lt (by norm_num) hb]
  · rw [not_lt]
    unfold Decimal.toRat
    push_cast
    rw [one_mul, one_mul, abs_of_pos (zpow_pos (by norm_num) _),
      abs_of_pos (zpow_pos (by norm_num) _), zpow_zero, one_mul]
    exact zpow_le_zpow_right₀ (by norm_num) (by norm_num)

/-! ## Claim C2: the constant tables are mutated by `Clamp` on a negative
over-limit operand (code bug). -/

/-- Claim C2 (code bug): `Clamp(3, 2)` on `-100000` negates the shared
`limitsBigTab[5]` entry in place through the aliased `NegInPlace`, so the
table is no longer the one built at start-up, and repeating the very same
call now yields the *positive* limit `999.99` for the negative operand
(and flips the shared entry back). -/
theorem C2_clamp_mutates_table :
    Decimal.Clamp ⟨-100000, 0⟩ 3 2 limitsBigTab =
      some (⟨-99999, -2⟩, limitsBigTab.set 5 (-99999)) ∧
    limitsBigTab.set 5 (-99999) ≠ limitsBigTab ∧
    Decimal.Clamp ⟨-100000, 0⟩ 3 2 (limitsBigTab.set 5 (-99999)) =
      some (⟨99999, -2⟩, limitsBigTab) := by decide

/-! ## Claim C4: the `Div` scale rule and truncation -/

/-- Number of 9-digit groups needed for `digits` fractional digits:
`(digits + 8) / 9` with truncating division (the mathematical content of
`roundBase10` without the int32 wrap). -/
def groups9 (digits : Int) : Int := Int.tdiv (digits + 8) 9

theorem tdiv9_abs_le (x : Int) : |Int.tdiv x 9| ≤ |x| := by
  rw [Int.abs_eq_natAbs, Int.abs_eq_natAbs, Int.natAbs_tdiv]
  exact_mod_cast Nat.div_le_self x.natAbs 9

theorem groups9_abs_le (x : Int) : |groups9 x| ≤ |x| + 8 := by
  have h := tdiv9_abs_le (x + 8)
  have h2 : |x + 8| ≤ |x| + 8 := by
    rcases abs_cases x with ⟨hx, _⟩ | ⟨hx, _⟩ <;>
      rcases abs_cases (x + 8) with ⟨hy, _⟩ | ⟨hy, _⟩ <;> omega
  unfold groups9
  omega

theorem roundBase10_eq (x : Int) (h : |x| ≤ 2 ^ 30) :
    Decimal.roundBase10 x = groups9 x := by
  obtain ⟨ha, hb⟩ := abs_le.mp h
  unfold Decimal.roundBase10 groups9
  rw [toInt32_eq_self (by unfold i32bound; omega) (by unfold i32bound; omega)]

/-- The result scale that `Div` computes, in exact integer arithmetic:
round each operand's fractional-digit count up to a number of 9-digit
groups, adjust and clamp the caller increment, and take 9 times the group
count of the total. -/
def divScaleSpec (e1 e2 incr : Int) : Int :=
  let s1 := -e1
  let s2 := -e2
  let fracLeft := groups9 s1
  let fracRight := groups9 s2
  let incr2 := incr - (fracLeft - s1 + fracRight - s2)
  let incr3 := if incr2 < 0 then 0 else incr2
  groups9 (fracLeft + fracRight + incr3) * 9

/-- Under moderate exponent/increment bounds every int32 step in `Div` is
exact, so `Div` is `quoRem` at the `divScaleSpec` scale, quotient kept and
remainder discarded. -/
theorem Div_eq_quoRem (d d2 : Decimal) (incr : Int) (hd : d.value ≠ 0)
    (hi0 : 0 ≤ incr) (hiB : incr ≤ 2 ^ 20)
    (hde : |d.exp| ≤ 2 ^ 20) (hd2e : |d2.exp| ≤ 2 ^ 20) :
    Decimal.Div d d2 incr =
      (Decimal.quoRem d d2 (divScaleSpec d.exp d2.exp incr)).map Prod.fst ∧
    |divScaleSpec d.exp d2.exp incr| ≤ 2 ^ 28 := by
  obtain ⟨hde1, hde2⟩ := abs_le.mp hde
  obtain ⟨hd2e1, hd2e2⟩ := abs_le.mp hd2e
  obtain ⟨hg1a, hg1b⟩ := abs_le.mp (groups9_abs_le (-d.exp))
  obtain ⟨hg2a, hg2b⟩ := abs_le.mp (groups9_abs_le (-d2.exp))
  rw [abs_neg] at hg1a hg1b hg2a hg2b
  have habs1 : (0:Int) ≤ |d.exp| := abs_nonneg _
  have habs2 : (0:Int) ≤ |d2.exp| := abs_nonneg _
  have h1 : toInt32 (-d.exp) = -d.exp :=
    toInt32_eq_self (by unfold i32bound; omega) (by unfold i32bound; omega)
  have h2 : toInt32 (-d2.exp) = -d2.exp :=
    toInt32_eq_self (by unfold i32bound; omega) (by unfold i32bound; omega)
  have hF1 : Decimal.roundBase10 (-d.exp) = groups9 (-d.exp) :=
    roundBase10_eq _ (by rw [abs_neg]; omega)
  have hF2 : Decimal.roundBase10 (-d2.exp) = groups9 (-d2.exp) :=
    roundBase10_eq _ (by rw [abs_neg]; omega)
  have hI : toInt32 (incr - (groups9 (-d.exp) - -d.exp + groups9 (-d2.exp) - -d2.exp)) = incr - (groups9 (-d.exp) - -d.exp + groups9 (-d2.exp) - -d2.exp) :=
    toInt32_eq_self (by unfold i32bound; omega) (by unfold i32bound; omega)
  have hite : (0:Int) ≤ (if incr - (groups9 (-d.exp) - -d.exp + groups9 (-d2.exp) - -d2.exp) < 0 then 0 else incr - (groups9 (-d.exp) - -d.exp + groups9 (-d2.exp) - -d2.exp)) ∧ (if incr - (groups9 (-d.exp) - -d.exp + groups9 (-d2.exp) - -d2.exp) < 0 then 0 else incr - (groups9 (-d.exp) - -d.exp + groups9 (-d2.exp) - -d2.exp)) ≤ 2 ^ 23 := by
    split_ifs with h <;> constructor <;> omega
  have hsumb : |groups9 (-d.exp) + groups9 (-d2.exp) + (if incr - (groups9 (-d.exp) - -d.exp + groups9 (-d2.exp) - -d2.exp) < 0 then 0 else incr - (groups9 (-d.exp) - -d.exp + groups9 (-d2.exp) - -d2.exp))| ≤ 2 ^ 30 :=
    abs_le.mpr ⟨by omega, by omega⟩
  have hSum32 : toInt32 (groups9 (-d.exp) + groups9 (-d2.exp) + (if incr - (groups9 (-d.exp) - -d.exp + groups9 (-d2.exp) - -d2.exp) < 0 then 0 else incr - (groups9 (-d.exp) - -d.exp + groups9 (-d2.exp) - -d2.exp))) = groups9 (-d.exp) + groups9 (-d2.exp) + (if incr - (groups9 (-d.exp) - -d.exp + groups9 (-d2.exp) - -d2.exp) < 0 then 0 else incr - (groups9 (-d.exp) - -d.exp + groups9 (-d2.exp) - -d2.exp)) :=
    toInt32_eq_self (by unfold i32bound; omega) (by unfold i32bound; omega)
  have hF3 : Decimal.roundBase10 (groups9 (-d.exp) + groups9 (-d2.exp) + (if incr - (groups9 (-d.exp) - -d.exp + groups9 (-d2.exp) - -d2.exp) < 0 then 0 else incr - (groups9 (-d.exp) - -d.exp + groups9 (-d2.exp) - -d2.exp))) = groups9 (groups9 (-d.exp) + groups9 (-d2.exp) + (if incr - (groups9 (-d.exp) - -d.exp + groups9 (-d2.exp) - -d2.exp) < 0 then 0 else incr - (groups9 (-d.exp) - -d.exp + groups9 (-d2.exp) - -d2.exp))) :=
    roundBase10_eq _ hsumb
  obtain ⟨hgSa, hgSb⟩ := abs_le.mp (groups9_abs_le (groups9 (-d.exp) + groups9 (-d2.exp) + (if incr - (groups9 (-d.exp) - -d.exp + groups9 (-d2.exp) - -d2.exp) < 0 then 0 else incr - (groups9 (-d.exp) - -d.exp + groups9 (-d2.exp) - -d2.exp))))
  have habsS : (0:Int) ≤ |groups9 (-d.exp) + groups9 (-d2.exp) + (if incr - (groups9 (-d.exp) - -d.exp + groups9 (-d2.exp) - -d2.exp) < 0 then 0 else incr - (groups9 (-d.exp) - -d.exp + groups9 (-d2.exp) - -d2.exp))| := abs_nonneg _
  have hsumb24 : |groups9 (-d.exp) + groups9 (-d2.exp) + (if incr - (groups9 (-d.exp) - -d.exp + groups9 (-d2.exp) - -d2.exp) < 0 then 0 else incr - (groups9 (-d.exp) - -d.exp + groups9 (-d2.exp) - -d2.exp))| ≤ 2 ^ 24 :=
    abs_le.mpr ⟨by omega, by omega⟩
  have houter : toInt32 (groups9 (groups9 (-d.exp) + groups9 (-d2.exp) + (if incr - (groups9 (-d.exp) - -d.exp + groups9 (-d2.exp) - -d2.exp) < 0 then 0 else incr - (groups9 (-d.exp) - -d.exp + groups9 (-d2.exp) - -d2.exp))) * 9) = groups9 (groups9 (-d.exp) + groups9 (-d2.exp) + (if incr - (groups9 (-d.exp) - -d.exp + groups9 (-d2.exp) - -d2.exp) < 0 then 0 else incr - (groups9 (-d.exp) - -d.exp + groups9 (-d2.exp) - -d2.exp))) * 9 :=
    toInt32_eq_self (by unfold i32bound; omega) (by unfold i32bound; omega)
  constructor
  · unfold Decimal.Div divScaleSpec
    rw [if_neg (by simp [Decimal.Sign, Int.sign_eq_zero_iff_zero, hd])]
    simp only [h1, h2, hF1, hF2, hI, hSum32, hF3, houter]
  · unfold divScaleSpec
    simp only [abs_mul]
    have h9 : |(9:Int)| = 9 := rfl
    rw [h9]
    have := abs_le.mpr (show -(2^24 + 8) ≤ groups9 (groups9 (-d.exp) + groups9 (-d2.exp) + (if incr - (groups9 (-d.exp) - -d.exp + groups9 (-d2.exp) - -d2.exp) < 0 then 0 else incr - (groups9 (-d.exp) - -d.exp + groups9 (-d2.exp) - -d2.exp))) ∧ groups9 (groups9 (-d.exp) + groups9 (-d2.exp) + (if incr - (groups9 (-d.exp) - -d.exp + groups9 (-d2.exp) - -d2.exp) < 0 then 0 else incr - (groups9 (-d.exp) - -d.exp + groups9 (-d2.exp) - -d2.exp))) ≤ 2^24 + 8 from ⟨by omega, by omega⟩)
    omega

namespace Decimal

theorem toRat_ne_zero {d : Decimal} (h : d.value ≠ 0) : d.toRat ≠ 0 := by
  unfold toRat
  exact mul_ne_zero (Int.cast_ne_zero.mpr h) (ten_zpow_ne_zero _)

end Decimal

/-- Claim C4 (amended): for nonzero operands and a non-negative (bounded)
scale increment, `Div` derives its result scale by the 9-digit-group rule
`divScaleSpec` — group counts of both operand scales, adjusted/clamped
increment, groups of the total times 9 — and computes the quotient with
the *exact truncating* division `quoRem` at that scale, discarding the
remainder: the result is an integer multiple of `10^(-scale)` within
`10^(-scale)` of the true quotient and no larger than it in magnitude
(truncation toward zero, not half-away rounding). -/
theorem C4_div_scale_trunc (d d2 : Decimal) (incr : Int)
    (hd : d.value ≠ 0) (hd2 : d2.value ≠ 0)
    (hi0 : 0 ≤ incr) (hiB : incr ≤ 2 ^ 20)
    (hde : |d.exp| ≤ 2 ^ 20) (hd2e : |d2.exp| ≤ 2 ^ 20) :
    ∃ q : Decimal,
      Decimal.Div d d2 incr = some q ∧
      q.exp = -(divScaleSpec d.exp d2.exp incr) ∧
      (∃ k : Int, q.toRat = (k : ℚ) * 10 ^ (-(divScaleSpec d.exp d2.exp incr))) ∧
      |d.toRat / d2.toRat - q.toRat| < 10 ^ (-(divScaleSpec d.exp d2.exp incr)) ∧
      |q.toRat| ≤ |d.toRat / d2.toRat| := by
  obtain ⟨hDiv, hS⟩ := Div_eq_quoRem d d2 incr hd hi0 hiB hde hd2e
  obtain ⟨hSa, hSb⟩ := abs_le.mp hS
  obtain ⟨hde1, hde2⟩ := abs_le.mp hde
  obtain ⟨hd2e1, hd2e2⟩ := abs_le.mp hd2e
  obtain ⟨A, B, s, hB, hqr, hA, hBq, hsgA, hsgB, hsor⟩ :=
    Decimal.quoRem_aligned d d2 (divScaleSpec d.exp d2.exp incr) hd2
      (by unfold i32bound; omega) (by unfold i32bound; omega)
      (by unfold i32bound; omega) (by unfold i32bound; omega)
      (by unfold i32bound; omega) (by unfold i32bound; omega)
  have hBne : (B : ℚ) ≠ 0 := Int.cast_ne_zero.mpr hB
  have hd2r : d2.toRat ≠ 0 := Decimal.toRat_ne_zero hd2
  have h1 : (A : ℚ) / B = (d.toRat / d2.toRat) * 10 ^ (divScaleSpec d.exp d2.exp incr) := by
    rw [hA, hBq, mul_div_mul_comm]
    congr 1
    rw [← zpow_sub₀ (by norm_num : (10:ℚ) ≠ 0)]
    congr 1
    ring
  have hkey : d.toRat / d2.toRat = ((A : ℚ) / B) * 10 ^ (-(divScaleSpec d.exp d2.exp incr)) := by
    rw [h1, mul_assoc, ← ten_zpow_add, add_neg_cancel, zpow_zero, mul_one]
  refine ⟨⟨Int.tdiv A B, -(divScaleSpec d.exp d2.exp incr)⟩, ?_, rfl,
    ⟨Int.tdiv A B, rfl⟩, ?_, ?_⟩
  · rw [hDiv, hqr]
    rfl
  · rw [hkey, Decimal.toRat_mk, ← sub_mul, abs_mul, abs_of_pos (ten_zpow_pos _)]
    calc |(A:ℚ)/B - (Int.tdiv A B : ℚ)| * 10 ^ (-(divScaleSpec d.exp d2.exp incr))
        < 1 * 10 ^ (-(divScaleSpec d.exp d2.exp incr)) :=
          mul_lt_mul_of_pos_right (tdiv_trunc A B hB).1 (ten_zpow_pos _)
      _ = 10 ^ (-(divScaleSpec d.exp d2.exp incr)) := one_mul _
  · rw [hkey, Decimal.toRat_mk, abs_mul, abs_mul, abs_of_pos (ten_zpow_pos _)]
    exact mul_le_mul_of_nonneg_right (tdiv_trunc A B hB).2 (le_of_lt (ten_zpow_pos _))

/-- Witness for C4 at `1 / 3` with increment 1: the derived scale is 9 and
the returned quotient is the truncation `0.333333333`. -/
theorem C4_div_scale_trunc_witness :
    Decimal.Div ⟨1, 0⟩ ⟨3, 0⟩ 1 = some ⟨333333333, -9⟩ ∧
    |Decimal.toRat ⟨1, 0⟩ / Decimal.toRat ⟨3, 0⟩ - Decimal.toRat ⟨333333333, -9⟩| <
      10 ^ (-(divScaleSpec 0 0 1)) := by
  obtain ⟨q, hq, hexp, hk, hlt, hle⟩ :=
    C4_div_scale_trunc ⟨1, 0⟩ ⟨3, 0⟩ 1 (by decide) (by decide) (by decide)
      (by decide) (by decide) (by decide)
  have hqv : Decimal.Div ⟨1, 0⟩ ⟨3, 0⟩ 1 = some ⟨333333333, -9⟩ := by decide
  rw [hqv] at hq
  injection hq with h
  subst h
  exact ⟨hqv, hlt⟩

/-! ## Claim C4: `Div` truncates instead of rounding (counterexample part). -/

/-- Claim C4, counterexample: at `d = 1`, `d2 = 2`, `scaleIncr = 0` the
derived scale is `0`; `Div` returns the truncated quotient `0`, while the
rounding division at that scale returns `1` — so `Div` does *not* compute
its quotient with the rounding (half-away-from-zero) division. -/
theorem C4_div_truncates_cex :
    Decimal.Div ⟨1, 0⟩ ⟨2, 0⟩ 0 = some ⟨0, 0⟩ ∧
    Decimal.divRound ⟨1, 0⟩ ⟨2, 0⟩ 0 = some ⟨1, 0⟩ ∧
    Decimal.toRat ⟨0, 0⟩ ≠ Decimal.toRat ⟨1, 0⟩ := by
  refine ⟨by decide, by decide, ?_⟩
  rw [Decimal.toRat_mk, Decimal.toRat_mk]
  norm_num

/-! ## Claim C5: `Mul` with a zero operand. -/

/-- Claim C5, counterexample: `Mul` with the `Zero` operand returns the
package `Zero` constant, whose exponent is `1`, not the canonical zero
with exponent 0 that the claim describes. -/
theorem C5_mul_zero_exp_cex :
    Decimal.Mul ⟨5, 0⟩ Zero = some ⟨0, 1⟩ ∧ (Zero.exp ≠ 0) := by decide

/-- Claim C5 (amended): for *every* `d` — including exponents at the very
edge of the int32 range, where `mul` would abort — `d.Mul(Zero)` (and
`Zero.Mul(d)`) short-circuits to the shared `Zero` constant, which is
zero-valued but carries exponent 1 rather than the canonical exponent 0. -/
theorem C5_mul_zero (d : Decimal) :
    Decimal.Mul d Zero = some Zero ∧ Decimal.Mul Zero d = some Zero ∧
    Zero.value = 0 ∧ Zero.exp = 1 ∧ Zero.toRat = 0 := by
  refine ⟨?_, ?_, rfl, rfl, by simp [Decimal.toRat, Zero, New]⟩
  · unfold Decimal.Mul
    rw [if_pos (Or.inr (by decide))]
  · unfold Decimal.Mul
    rw [if_pos (Or.inl (by decide))]

/-! ## Claim C6: division by the zero value. -/

/-- Claim C6, counterexample: `Div` with a *zero dividend* returns the
`Zero` constant without ever examining the divisor, so a zero divisor does
not abort this operation, contradicting the "for every dividend" claim. -/
theorem C6_zero_dividend_cex :
    Decimal.Div ⟨0, 0⟩ ⟨0, 0⟩ 5 = some Zero := by decide

/-- Claim C6 (amended): with a zero divisor, `quoRem`, `divRound` and `mod`
abort (fatally) for every dividend; `Div` aborts for every nonzero
dividend but short-circuits a zero dividend to `Zero` without examining
the divisor. -/
theorem C6_division_by_zero (d d2 : Decimal) (p incr : Int)
    (h : d2.value = 0) :
    Decimal.quoRem d d2 p = none ∧
    Decimal.divRound d d2 p = none ∧
    Decimal.mod d d2 = none ∧
    (d.value ≠ 0 → Decimal.Div d d2 incr = none) ∧
    (d.value = 0 → Decimal.Div d d2 incr = some Zero) := by
  have hq : ∀ pr : Int, Decimal.quoRem d d2 pr = none := by
    intro pr
    unfold Decimal.quoRem
    rw [if_pos h]
  refine ⟨hq p, ?_, ?_, ?_, ?_⟩
  · unfold Decimal.divRound
    rw [hq]
    rfl
  · unfold Decimal.mod
    simp only [Decimal.divRound, hq, Option.map_none']
  · intro hd
    unfold Decimal.Div
    rw [if_neg (by simp [Decimal.Sign, Int.sign_eq_zero_iff_zero, hd])]
    simp only [hq, Option.map_none']
  · intro hd
    unfold Decimal.Div
    rw [if_pos (by simp [Decimal.Sign, hd])]

/-- Witness for C6 at concrete inputs: the zero-divisor aborts and the
zero-dividend `Div` short-circuit. -/
theorem C6_division_by_zero_witness :
    Decimal.quoRem ⟨7, 0⟩ ⟨0, 2⟩ 3 = none ∧
    Decimal.divRound ⟨7, 0⟩ ⟨0, 2⟩ 3 = none ∧
    Decimal.mod ⟨7, 0⟩ ⟨0, 2⟩ = none ∧
    Decimal.Div ⟨7, 0⟩ ⟨0, 2⟩ 4 = none ∧
    Decimal.Div ⟨0, 5⟩ ⟨0, 2⟩ 4 = some Zero := by
  have h1 := C6_division_by_zero ⟨7, 0⟩ ⟨0, 2⟩ 3 4 (by decide)
  have h2 := C6_division_by_zero ⟨0, 5⟩ ⟨0, 2⟩ 3 4 (by decide)
  exact ⟨h1.1, h1.2.1, h1.2.2.1, h1.2.2.2.1 (by decide), h2.2.2.2.2 (by decide)⟩

/-! ## Claim C7: the fast-path gate (counterexample part). -/

/-- Claim C7, counterexample: `"123456789.123456789"` has a digit run of
exactly 18 characters (dot excluded), yet the fast-path gate in
`NewFromMySQL` tests the total byte length after the sign — 19 here — so
the input is handed to the arbitrary-precision fallback, not the 64-bit
fast path. -/
theorem C7_gate_is_bytes_cex :
    ((stripSign "123456789.123456789".toList).2.filter isDig).length = 18 ∧
    ¬ ((stripSign "123456789.123456789".toList).2.length ≤ 18) := by decide

/-! ## Claim C10: parser acceptance (counterexample part). -/

/-- Claim C10, counterexample: the input `"."` contains no digit at all —
outside the `[+|-]digits[.digits]` grammar — yet `NewFromMySQL` accepts it
and returns zero. -/
theorem C10_accepts_dot_only_cex :
    NewFromMySQL ['.'] = .ok ⟨0, 0⟩ ∧ ¬ isDig '.' := by decide

/-! ## Half-away-from-zero rounding: the `Round` and `divRound`
characterizations (claim C9) -/

theorem ediv_ediv_eq (a b c : Int) (hb : 0 < b) (hc : 0 < c) :
    a / b / c = a / (b * c) := by
  have hbc : 0 < b * c := mul_pos hb hc
  have h1 : b * c * (a / (b * c)) + a % (b * c) = a := Int.ediv_add_emod a (b * c)
  have hs1 : 0 ≤ a % (b * c) := Int.emod_nonneg a (by omega)
  have hs2 : a % (b * c) < b * c := Int.emod_lt_of_pos a hbc
  have h2 : a / b = a % (b * c) / b + c * (a / (b * c)) := by
    conv_lhs => rw [← h1]
    rw [show b * c * (a / (b * c)) + a % (b * c)
        = a % (b * c) + (c * (a / (b * c))) * b by ring]
    exact Int.add_mul_ediv_right _ _ (by omega)
  have h3 : a % (b * c) / b < c := by
    rw [Int.ediv_lt_iff_lt_mul hb]
    calc a % (b * c) < b * c := hs2
      _ = c * b := mul_comm b c
  have h4 : 0 ≤ a % (b * c) / b := Int.ediv_nonneg hs1 (le_of_lt hb)
  rw [h2, show a % (b * c) / b + c * (a / (b * c))
      = a % (b * c) / b + (a / (b * c)) * c by ring,
    Int.add_mul_ediv_right _ _ (by omega : c ≠ 0),
    Int.ediv_eq_zero_of_lt h4 h3]
  omega

/-- Half-away-from-zero rounding of a rational to an integer. -/
def roundAwayQ (x : ℚ) : Int := if 0 ≤ x then ⌊x + 1/2⌋ else -⌊-x + 1/2⌋

theorem roundAwayQ_neg (x : ℚ) : roundAwayQ (-x) = -roundAwayQ x := by
  unfold roundAwayQ
  rcases lt_trichotomy x 0 with h | h | h
  · rw [if_pos (by linarith), if_neg (by linarith)]
    ring_nf
  · subst h
    norm_num
  · rw [if_neg (by linarith), if_pos (by linarith)]
    ring_nf

theorem roundAwayQ_intCast (n : Int) : roundAwayQ (n : ℚ) = n := by
  unfold roundAwayQ
  rcases le_or_lt 0 (n : ℚ) with h | h
  · rw [if_pos h]
    rw [show ((n : ℚ) + 1/2) = (1/2 : ℚ) + n by ring, Int.floor_add_int]
    norm_num
  · rw [if_neg (by linarith)]
    rw [show (-(n : ℚ) + 1/2) = (1/2 : ℚ) + (-n : ℤ) by push_cast; ring,
      Int.floor_add_int]
    norm_num

theorem floor_int_div (n T : Int) (hT : 0 ≤ T) : ⌊(n : ℚ) / (T : ℚ)⌋ = n / T := by
  have hc : ((T.toNat : ℕ) : ℚ) = (T : ℚ) := by exact_mod_cast Int.toNat_of_nonneg hT
  rw [← hc, Rat.floor_intCast_div_natCast]
  congr 1
  exact_mod_cast Int.toNat_of_nonneg hT

/-- The +5 / divide-by-ten / adjust step of `Round`, on the already
truncated magnitude. -/
def roundHalfStep (w : Int) : Int :=
  let v1 := if w < 0 then w - 5 else w + 5
  let q := v1 / 10
  let m := v1 % 10
  if q < 0 ∧ m ≠ 0 then q + 1 else q

theorem floor_add_half (v T : Int) (hT : 0 < T) :
    ⌊(v : ℚ) / (10 * T : ℚ) + 1/2⌋ = (v / T + 5) / 10 := by
  have hTQ : ((10 * T : ℤ) : ℚ) ≠ 0 := Int.cast_ne_zero.mpr (by omega)
  have h1 : (v : ℚ) / ((10 * T : ℤ) : ℚ) + 1/2 = ((v + 5 * T : ℤ) : ℚ) / ((10 * T : ℤ) : ℚ) := by
    field_simp
    ring
  have h2 : ⌊(v : ℚ) / (10 * T : ℚ) + 1/2⌋ = (v + 5 * T) / (10 * T) := by
    rw [show ((10 : ℚ) * T) = ((10 * T : ℤ) : ℚ) by push_cast; ring, h1,
      floor_int_div _ _ (by omega)]
  rw [h2, show (10 * T : ℤ) = T * 10 by ring, ← ediv_ediv_eq _ _ _ hT (by norm_num),
    show (v + 5 * T : ℤ) = v + 5 * T by ring, Int.add_mul_ediv_right _ _ (by omega : T ≠ 0)]

/-- Pure integer form of the +5/divide/adjust step on a non-negative
truncated magnitude. -/
theorem roundHalfStep_nonneg (w : Int) (hw : 0 ≤ w) :
    roundHalfStep w = (w + 5) / 10 := by
  simp only [roundHalfStep]
  split_ifs <;> omega

theorem roundHalfStep_nonpos (g : Int) (hg : 0 ≤ g) :
    roundHalfStep (-g) = -((g + 5) / 10) := by
  simp only [roundHalfStep]
  split_ifs <;> omega

/-- Core rounding identity: the truncate-to-one-extra-digit, add five,
divide-by-ten-and-adjust procedure computes exactly the half-away-from-zero
rounding of `v / (10 T)`. -/
theorem roundHalfStep_eq (v T : Int) (hT : 0 < T) :
    roundHalfStep (Int.tdiv v T) = roundAwayQ ((v : ℚ) / ((10 * T : ℤ) : ℚ)) := by
  have hTQ : (0:ℚ) < ((10 * T : ℤ) : ℚ) := by
    rw [Int.cast_pos]
    omega
  rcases le_or_lt 0 v with hv | hv
  · have hw : Int.tdiv v T = v / T := Int.tdiv_eq_ediv hv (le_of_lt hT)
    have hw0 : 0 ≤ v / T := Int.ediv_nonneg hv (le_of_lt hT)
    have harg : (0:ℚ) ≤ (v : ℚ) / ((10 * T : ℤ) : ℚ) := by
      apply div_nonneg _ (le_of_lt hTQ)
      exact_mod_cast hv
    unfold roundAwayQ
    rw [if_pos harg, hw,
      show ((10 * T : ℤ) : ℚ) = ((10 : ℚ) * T) by push_cast; ring,
      floor_add_half v T hT]
    exact roundHalfStep_nonneg _ hw0
  · have hneg := Int.neg_tdiv (-v) T
    rw [neg_neg] at hneg
    have hw : Int.tdiv v T = -((-v) / T) := by
      rw [hneg, Int.tdiv_eq_ediv (by omega) (le_of_lt hT)]
    have hg0 : 0 ≤ (-v) / T := Int.ediv_nonneg (by omega) (le_of_lt hT)
    have harg : (v : ℚ) / ((10 * T : ℤ) : ℚ) < 0 := by
      apply div_neg_of_neg_of_pos _ hTQ
      exact_mod_cast hv
    unfold roundAwayQ
    rw [if_neg (not_le.mpr harg), hw,
      show -((v : ℚ) / ((10 * T : ℤ) : ℚ)) = ((-v : ℤ) : ℚ) / ((10 * T : ℤ) : ℚ) by
        push_cast; ring,
      show ((10 * T : ℤ) : ℚ) = ((10 : ℚ) * T) by push_cast; ring,
      floor_add_half (-v) T hT]
    exact roundHalfStep_nonpos _ hg0


theorem floor_add_half_gen (A B : Int) (hB : 0 < B) :
    ⌊(A : ℚ) / (B : ℚ) + 1/2⌋ = (2 * A + B) / (2 * B) := by
  have hBQ : ((B : ℤ) : ℚ) ≠ 0 := Int.cast_ne_zero.mpr (by omega)
  have h1 : (A : ℚ) / (B : ℚ) + 1/2 = ((2 * A + B : ℤ) : ℚ) / ((2 * B : ℤ) : ℚ) := by
    push_cast
    rw [div_add_div _ _ hBQ (by norm_num : (2:ℚ) ≠ 0)]
    rw [show (A:ℚ) * 2 + (B:ℚ) * 1 = 2 * A + B by ring, show (B:ℚ) * 2 = 2 * B by ring]
  rw [h1, floor_int_div _ _ (by omega)]

theorem roundAway_div_core (A B : Int) (hA : 0 ≤ A) (hB : 0 < B) :
    roundAwayQ ((A : ℚ) / B) =
      A / B + (if 2 * (A % B) < B then 0 else 1) := by
  have harg : (0:ℚ) ≤ (A : ℚ) / B := by
    apply div_nonneg
    · exact_mod_cast hA
    · exact_mod_cast le_of_lt hB
  unfold roundAwayQ
  rw [if_pos harg, floor_add_half_gen A B hB]
  have hm1 : 0 ≤ A % B := Int.emod_nonneg A (by omega)
  have hm2 : A % B < B := Int.emod_lt_of_pos A hB
  have hid : B * (A / B) + A % B = A := Int.ediv_add_emod A B
  have hsplit : (2 * A + B : ℤ) = (2 * (A % B) + B) + (A / B) * (2 * B) := by
    conv_lhs => rw [← hid]
    ring
  rw [hsplit, Int.add_mul_ediv_right _ _ (by omega : 2 * B ≠ 0)]
  by_cases hc : 2 * (A % B) < B
  · rw [if_pos hc, Int.ediv_eq_zero_of_lt (by omega) (by omega)]
    omega
  · rw [if_neg hc,
      show (2 * (A % B) + B : ℤ) = (2 * (A % B) - B) + 1 * (2 * B) by ring,
      Int.add_mul_ediv_right _ _ (by omega : 2 * B ≠ 0),
      Int.ediv_eq_zero_of_lt (by omega) (by omega)]
    omega

theorem roundAway_div_posB (A B : Int) (hB : 0 < B) :
    roundAwayQ ((A : ℚ) / B) =
      Int.tdiv A B + (if 2 * |Int.tmod A B| < |B| then 0
        else if Int.sign A * Int.sign B < 0 then -1 else 1) := by
  rcases le_or_lt 0 A with hA | hA
  · rw [Int.tdiv_eq_ediv hA (le_of_lt hB),
      Int.tmod_eq_emod hA (le_of_lt hB),
      abs_of_nonneg (Int.emod_nonneg A (by omega)),
      abs_of_pos hB, roundAway_div_core A B hA hB]
    by_cases hsgn : Int.sign A * Int.sign B < 0
    · exfalso
      rcases eq_or_lt_of_le hA with h0 | h0
      · rw [← h0] at hsgn
        simp at hsgn
      · rw [Int.sign_eq_one_of_pos h0, Int.sign_eq_one_of_pos hB] at hsgn
        norm_num at hsgn
    · rw [if_neg hsgn]
  · have hAn : 0 ≤ -A := by omega
    have hrec := roundAway_div_core (-A) B hAn hB
    have hL : roundAwayQ ((A : ℚ) / B) = -roundAwayQ (((-A : ℤ) : ℚ) / B) := by
      rw [show (((-A : ℤ) : ℚ) / B) = -((A:ℚ)/B) by push_cast; ring, roundAwayQ_neg]
      ring
    rw [hL, hrec]
    have htd : Int.tdiv A B = -(Int.tdiv (-A) B) := by
      rw [← Int.neg_tdiv, neg_neg]
    have htd2 : Int.tdiv (-A) B = (-A) / B := Int.tdiv_eq_ediv hAn (le_of_lt hB)
    have htm : |Int.tmod A B| = |(-A) % B| := by
      have h1 : Int.tmod (-A) B = -(Int.tmod A B) := by
        rw [Int.tmod_def, Int.tmod_def, Int.neg_tdiv]
        ring
      rw [← Int.tmod_eq_emod hAn (le_of_lt hB), h1, abs_neg]
    have hsgn : Int.sign A * Int.sign B < 0 := by
      rw [Int.sign_eq_neg_one_of_neg hA, Int.sign_eq_one_of_pos hB]
      norm_num
    rw [htd, htd2, htm, if_pos hsgn, abs_of_pos hB]
    by_cases hc : 2 * ((-A) % B) < B
    · rw [if_pos hc, if_pos (by rwa [abs_of_nonneg (Int.emod_nonneg (-A) (by omega))])]
      ring
    · rw [if_neg hc, if_neg (by rwa [abs_of_nonneg (Int.emod_nonneg (-A) (by omega))])]
      ring

theorem roundAway_div (A B : Int) (hB : B ≠ 0) :
    roundAwayQ ((A : ℚ) / B) =
      Int.tdiv A B + (if 2 * |Int.tmod A B| < |B| then 0
        else if Int.sign A * Int.sign B < 0 then -1 else 1) := by
  rcases lt_or_gt_of_ne hB with hBn | hBp
  · have h := roundAway_div_posB (-A) (-B) (by omega)
    rw [show (((-A : ℤ) : ℚ) / ((-B : ℤ) : ℚ)) = (A:ℚ)/B by push_cast; rw [neg_div_neg_eq]] at h
    rw [h, Int.neg_tdiv_neg]
    have htm : Int.tmod (-A) (-B) = -(Int.tmod A B) := by
      rw [Int.tmod_neg, Int.tmod_def, Int.tmod_def, Int.neg_tdiv]
      ring
    rw [htm, abs_neg, abs_neg, Int.sign_neg, Int.sign_neg,
      show -A.sign * -B.sign = A.sign * B.sign by ring]
  · exact roundAway_div_posB A B hBp


namespace Decimal

theorem toRat_neg (d : Decimal) : d.Neg.toRat = -d.toRat := by
  unfold Neg toRat
  push_cast
  ring

theorem toRat_abs (d : Decimal) : d.abs.toRat = |d.toRat| := by
  unfold abs Sign
  split_ifs with h
  · have hv : 0 ≤ d.value := Int.sign_nonneg.mp h
    rw [abs_of_nonneg]
    unfold toRat
    exact mul_nonneg (by exact_mod_cast hv) (le_of_lt (ten_zpow_pos _))
  · unfold toRat
    simp only
    rw [abs_mul, abs_of_pos (ten_zpow_pos _), ← Int.cast_abs]

theorem abs_exp (d : Decimal) : d.abs.exp = d.exp := by
  unfold abs
  split_ifs <;> rfl

/-- Two decimals with the same exponent and the same value are equal. -/
theorem ext_toRat {d1 d2 : Decimal} (he : d1.exp = d2.exp)
    (hv : d1.toRat = d2.toRat) : d1 = d2 := by
  obtain ⟨v1, e1⟩ := d1
  obtain ⟨v2, e2⟩ := d2
  simp only at he
  subst he
  unfold toRat at hv
  simp only at hv
  have := mul_right_cancel₀ (ten_zpow_ne_zero e1) hv
  have hvv : v1 = v2 := by exact_mod_cast this
  rw [hvv]

/-- `rescale` upward (to a larger exponent) truncates by the exact power of
ten (no-wrap range). -/
theorem rescale_up (d : Decimal) (E : Int) (hE : d.exp < E)
    (hlt : E - d.exp < i32bound) :
    d.rescale E = ⟨Int.tdiv d.value (10 ^ (E - d.exp).toNat), E⟩ := by
  unfold rescale
  rw [if_pos hE, bigPow10, toInt32_eq_self (by omega) (by unfold i32bound at *; omega),
    u64_eq_toNat (by omega) (by unfold i32bound at hlt; omega)]

/-- The main branch of `Round` is `roundHalfStep` on the rescaled value. -/
theorem Round_main (d : Decimal) (places : Int)
    (h : d.exp ≠ toInt32 (-places)) :
    d.Round places = ⟨roundHalfStep (d.rescale (toInt32 (-places - 1))).value,
      toInt32 ((d.rescale (toInt32 (-places - 1))).exp + 1)⟩ := by
  unfold Round roundHalfStep
  rw [if_neg h]

/-- `Round` computes exactly the half-away-from-zero rounding to `places`
decimal places (no-wrap range): the result sits at exponent `-places` and
its value is `roundAwayQ` of the operand scaled by `10^places`. -/
theorem Round_eq (d : Decimal) (places : Int)
    (hde : |d.exp| ≤ 2 ^ 20) (hp : |places| ≤ 2 ^ 20) :
    (d.Round places).exp = -places ∧
    (d.Round places).toRat = (roundAwayQ (d.toRat * 10 ^ places) : ℚ) * 10 ^ (-places) := by
  obtain ⟨hde1, hde2⟩ := abs_le.mp hde
  obtain ⟨hp1, hp2⟩ := abs_le.mp hp
  have hnp : toInt32 (-places) = -places :=
    toInt32_eq_self (by unfold i32bound; omega) (by unfold i32bound; omega)
  by_cases h0 : d.exp = -places
  · have hearly : d.Round places = d := by
      unfold Round
      rw [if_pos (by rw [hnp]; exact h0)]
    have hv : d.toRat * 10 ^ places = ((d.value : ℚ)) := by
      unfold toRat
      rw [mul_assoc, ← ten_zpow_add, h0]
      norm_num
    rw [hearly, hv, roundAwayQ_intCast]
    refine ⟨h0, ?_⟩
    unfold toRat
    rw [h0]
  · have hne : d.exp ≠ toInt32 (-places) := by rwa [hnp]
    have hE : toInt32 (-places - 1) = -places - 1 :=
      toInt32_eq_self (by unfold i32bound; omega) (by unfold i32bound; omega)
    have hE1 : toInt32 (-places - 1 + 1) = -places := by
      rw [show (-places - 1 + 1 : ℤ) = -places by ring, hnp]
    rw [Round_main d places hne, hE]
    rcases le_or_lt (-places - 1) d.exp with hcase | hcase
    · have hrd := rescale_down d (-places - 1) hcase (by unfold i32bound; omega)
      rw [hrd]
      refine ⟨hE1, ?_⟩
      have h1 : roundHalfStep (d.value * 10 ^ (d.exp - (-places - 1)).toNat) =
          roundAwayQ (((d.value * 10 ^ (d.exp - (-places - 1)).toNat : ℤ) : ℚ) /
            ((10 * 1 : ℤ) : ℚ)) := by
        have h := roundHalfStep_eq (d.value * 10 ^ (d.exp - (-places - 1)).toNat) 1
          (by norm_num)
        rwa [Int.tdiv_one] at h
      have harg : ((d.value * 10 ^ (d.exp - (-places - 1)).toNat : ℤ) : ℚ) /
          ((10 * 1 : ℤ) : ℚ) = d.toRat * 10 ^ places := by
        push_cast
        rw [← zpow_natCast (10 : ℚ) (d.exp - (-places - 1)).toNat,
          Int.toNat_of_nonneg (by omega), mul_div_assoc, div_eq_mul_inv,
          ← zpow_sub_one₀ (by norm_num : (10 : ℚ) ≠ 0)]
        unfold toRat
        rw [mul_assoc, ← ten_zpow_add]
        congr 2
        ring
      rw [toRat_mk, h1, harg, hE1]
    · have hru := rescale_up d (-places - 1) hcase (by unfold i32bound; omega)
      rw [hru]
      refine ⟨hE1, ?_⟩
      have hT : (0 : ℤ) < 10 ^ ((-places - 1) - d.exp).toNat := pow_pos (by norm_num) _
      have h1 := roundHalfStep_eq d.value (10 ^ ((-places - 1) - d.exp).toNat) hT
      have harg : ((d.value : ℤ) : ℚ) /
          ((10 * 10 ^ ((-places - 1) - d.exp).toNat : ℤ) : ℚ) = d.toRat * 10 ^ places := by
        push_cast
        rw [← zpow_natCast (10 : ℚ) ((-places - 1) - d.exp).toNat,
          Int.toNat_of_nonneg (by omega)]
        rw [show (10 : ℚ) * (10 : ℚ) ^ (-places - 1 - d.exp) =
            (10 : ℚ) ^ (1 : ℤ) * (10 : ℚ) ^ (-places - 1 - d.exp) by norm_num,
          ← ten_zpow_add, div_eq_mul_inv, ← zpow_neg]
        unfold toRat
        rw [mul_assoc, ← ten_zpow_add]
        congr 2
        ring
      rw [toRat_mk, h1, harg, hE1]

theorem sub_same_exp (v1 v2 e : Int) :
    Decimal.sub ⟨v1, e⟩ ⟨v2, e⟩ = ⟨v1 - v2, e⟩ := by
  simp [sub, RescalePair]

theorem Add_same_exp (v1 v2 e : Int) :
    Decimal.Add ⟨v1, e⟩ ⟨v2, e⟩ = ⟨v1 + v2, e⟩ := by
  simp [Add, RescalePair]

/-- `divRound` computes exactly the half-away-from-zero rounding of the
quotient to `precision` places (no-wrap range): ties are decided by
comparing `2|r|` with `|d2|` at matching scale and always move away from
zero. -/
theorem divRound_eq (d d2 : Decimal) (p : Int) (hd2 : d2.value ≠ 0)
    (hde : |d.exp| ≤ 2 ^ 20) (hd2e : |d2.exp| ≤ 2 ^ 20) (hp : |p| ≤ 2 ^ 20) :
    ∃ q, d.divRound d2 p = some q ∧ q.exp = -p ∧
      q.toRat = (roundAwayQ ((d.toRat / d2.toRat) * 10 ^ p) : ℚ) * 10 ^ (-p) := by
  obtain ⟨hde1, hde2⟩ := abs_le.mp hde
  obtain ⟨hd2e1, hd2e2⟩ := abs_le.mp hd2e
  obtain ⟨hp1, hp2⟩ := abs_le.mp hp
  obtain ⟨A, B, s, hB, hqr, hA, hBq, hsgA, hsgB, hsor⟩ :=
    quoRem_aligned d d2 p hd2
      (by unfold i32bound; omega) (by unfold i32bound; omega)
      (by unfold i32bound; omega) (by unfold i32bound; omega)
      (by unfold i32bound; omega) (by unfold i32bound; omega)
  have hsb : -(2:Int) ^ 22 ≤ s ∧ s ≤ 2 ^ 22 := by
    rcases hsor with h | h <;> constructor <;> omega
  have hBne : (B : ℚ) ≠ 0 := Int.cast_ne_zero.mpr hB
  have hd2r : d2.toRat ≠ 0 := toRat_ne_zero hd2
  have h1 : (A : ℚ) / B = (d.toRat / d2.toRat) * 10 ^ p := by
    rw [hA, hBq, mul_div_mul_comm]
    congr 1
    rw [← zpow_sub₀ (by norm_num : (10:ℚ) ≠ 0)]
    congr 1
    ring
  have h32 : toInt32 (-s + p) = -s + p :=
    toInt32_eq_self (by unfold i32bound; omega) (by unfold i32bound; omega)
  have h32p : toInt32 (-p) = -p :=
    toInt32_eq_self (by unfold i32bound; omega) (by unfold i32bound; omega)
  have habs2 : |d2.toRat| = (|B| : ℚ) * 10 ^ (p - s) := by
    have hb1 : |(B : ℚ)| = |d2.toRat| * 10 ^ (s - p) := by
      rw [hBq, abs_mul, abs_of_pos (ten_zpow_pos _)]
    rw [hb1, mul_assoc, ← ten_zpow_add]
    norm_num
  have hcmp : (Cmp ⟨|Int.tmod A B| * 2, -s + p⟩ d2.abs < 0) ↔
      2 * |Int.tmod A B| < |B| := by
    rw [Cmp_lt_iff _ _ (by
      rw [abs_exp]
      show |(-s + p) - d2.exp| < i32bound
      rw [abs_lt]
      unfold i32bound
      constructor <;> omega)]
    rw [toRat_mk, toRat_abs, habs2,
      show (-s + p : ℤ) = p - s by ring]
    rw [mul_lt_mul_right (ten_zpow_pos _)]
    constructor
    · intro h
      exact_mod_cast (by push_cast at h ⊢; linarith : ((2 * |Int.tmod A B| : ℤ) : ℚ) < (|B| : ℚ))
    · intro h
      push_cast
      have : ((2 * |Int.tmod A B| : ℤ) : ℚ) < ((|B| : ℤ) : ℚ) := by exact_mod_cast h
      push_cast at this
      linarith
  have hdr : d.divRound d2 p = some (
      if Cmp ⟨|Int.tmod A B| * 2, toInt32 (-s + p)⟩ d2.abs < 0 then
        (⟨Int.tdiv A B, -p⟩ : Decimal)
      else if Int.sign d.value * Int.sign d2.value < 0 then
        Decimal.sub ⟨Int.tdiv A B, -p⟩ (New 1 (toInt32 (-p)))
      else
        Decimal.Add ⟨Int.tdiv A B, -p⟩ (New 1 (toInt32 (-p)))) := by
    unfold divRound
    rw [hqr]
    rfl
  rw [hdr, h32, h32p]
  have hra := roundAway_div A B hB
  rw [h1] at hra
  by_cases hc : 2 * |Int.tmod A B| < |B|
  · rw [if_pos (hcmp.mpr hc)]
    refine ⟨_, rfl, rfl, ?_⟩
    rw [toRat_mk, hra, if_pos hc]
    norm_num
  · rw [if_neg (fun hcon => hc (hcmp.mp hcon))]
    rw [← hsgA, ← hsgB] at *
    by_cases hsgn : Int.sign A * Int.sign B < 0
    · rw [if_pos hsgn]
      rw [show (New 1 (-p)) = (⟨1, -p⟩ : Decimal) from rfl, sub_same_exp]
      refine ⟨_, rfl, rfl, ?_⟩
      rw [toRat_mk, hra, if_neg hc, if_pos hsgn]
      push_cast
      ring
    · rw [if_neg hsgn]
      rw [show (New 1 (-p)) = (⟨1, -p⟩ : Decimal) from rfl, Add_same_exp]
      refine ⟨_, rfl, rfl, ?_⟩
      rw [toRat_mk, hra, if_neg hc, if_neg hsgn]

end Decimal

/-! ## Claim C9: half-away-from-zero rounding -/

/-- Claim C9, counterexample: at `places = 2^31 - 1` (a legal int32) and an
operand with exponent 5, the int32/uint64 conversions inside `rescale`
wrap, and `Round` produces an astronomically wrong value instead of the
half-away-from-zero rounding (which would leave the value unchanged). -/
theorem C9_round_wrap_cex :
    Decimal.toRat (Decimal.Round ⟨1, 5⟩ 2147483647) ≠
      (roundAwayQ (Decimal.toRat ⟨1, 5⟩ * 10 ^ (2147483647 : ℤ)) : ℚ) *
        10 ^ (-2147483647 : ℤ) := by
  have hstep : Decimal.Round ⟨1, 5⟩ 2147483647 =
      ⟨10 ^ (18446744071562067972 : ℕ), -2147483647⟩ := by
    unfold Decimal.Round
    rw [if_neg (by decide)]
    have hE : toInt32 (-(2147483647:Int) - 1) = -2147483648 := by decide
    rw [hE]
    have hresc : Decimal.rescale ⟨1, 5⟩ (-2147483648) =
        ⟨10 ^ (18446744071562067973 : ℕ), -2147483648⟩ := by
      unfold Decimal.rescale
      rw [if_neg (by decide), if_pos (by decide)]
      have hu : u64 (toInt32 ((5:Int) - -2147483648)) = 18446744071562067973 := by decide
      rw [hu]
      unfold bigPow10
      rw [one_mul]
    rw [hresc]
    simp only
    have hpos : ¬ ((10:ℤ) ^ (18446744071562067973 : ℕ) < 0) :=
      not_lt.mpr (pow_nonneg (by norm_num) _)
    rw [if_neg hpos]
    have hexp : (18446744071562067972 : ℕ) + 1 = 18446744071562067973 := by norm_num
    have hsplit : (10:ℤ) ^ (18446744071562067973 : ℕ) + 5 =
        5 + (10:ℤ) ^ (18446744071562067972 : ℕ) * 10 := by
      rw [← hexp, pow_succ]
      exact add_comm _ _
    have hq : ((10:ℤ) ^ (18446744071562067973 : ℕ) + 5) / 10 =
        10 ^ (18446744071562067972 : ℕ) := by
      rw [hsplit, Int.add_mul_ediv_right _ _ (by norm_num : (10:ℤ) ≠ 0)]
      rw [show ((5:ℤ) / 10) = 0 from by decide, zero_add]
    have hm : ((10:ℤ) ^ (18446744071562067973 : ℕ) + 5) % 10 = 5 := by
      rw [hsplit, Int.add_mul_emod_self]
      decide
    rw [hq, hm]
    have hq0 : ¬ ((10:ℤ) ^ (18446744071562067972 : ℕ) < 0 ∧ (5:ℤ) ≠ 0) := by
      rintro ⟨h, -⟩
      exact absurd h (not_lt.mpr (pow_nonneg (by norm_num) _))
    rw [if_neg hq0]
    have : toInt32 ((-2147483648 : Int) + 1) = -2147483647 := by decide
    rw [this]
  have hR : Decimal.toRat ⟨1, 5⟩ * (10:ℚ) ^ (2147483647 : ℤ) =
      (((10 : ℤ) ^ (2147483652 : ℕ) : ℤ) : ℚ) := by
    unfold Decimal.toRat
    push_cast
    rw [one_mul, ← ten_zpow_add,
      show ((5:ℤ) + 2147483647) = ((2147483652 : ℕ) : ℤ) from by norm_num,
      zpow_natCast]
  rw [hstep, hR, roundAwayQ_intCast]
  unfold Decimal.toRat
  intro hcon
  have hc2 := mul_right_cancel₀ (ten_zpow_ne_zero (-2147483647)) hcon
  have hc2' : ((10 ^ (18446744071562067972 : ℕ) : ℤ) : ℚ) =
      ((10 ^ (2147483652 : ℕ) : ℤ) : ℚ) := hc2
  have hlt : ((10 ^ (2147483652 : ℕ) : ℤ) : ℚ) <
      ((10 ^ (18446744071562067972 : ℕ) : ℤ) : ℚ) := by
    rw [Int.cast_lt]
    exact pow_lt_pow_right₀ (by norm_num) (by norm_num)
  rw [hc2'] at hlt
  exact absurd hlt (lt_irrefl _)

/-- Claim C9 (amended): within a wrap-safe band (|exponent|, |places|
≤ 2^20), `Round` rounds to `places` places half-away-from-zero (exact
halves move away from zero, never to even — `roundAwayQ` is
`⌊x + 1/2⌋` for `x ≥ 0` and the mirror image for `x < 0`), negation
commutes with `Round`, and `divRound` rounds its quotient by the same
rule, deciding via the `2|r|` versus `|d2|` comparison. -/
theorem C9_rounding (d d2 : Decimal) (places : Int)
    (hde : |d.exp| ≤ 2 ^ 20) (hp : |places| ≤ 2 ^ 20)
    (hd2e : |d2.exp| ≤ 2 ^ 20) (hd2 : d2.value ≠ 0) :
    (d.Round places).exp = -places ∧
    (d.Round places).toRat =
      (roundAwayQ (d.toRat * 10 ^ places) : ℚ) * 10 ^ (-places) ∧
    d.Neg.Round places = (d.Round places).Neg ∧
    (∃ q, d.divRound d2 places = some q ∧ q.exp = -places ∧
      q.toRat = (roundAwayQ ((d.toRat / d2.toRat) * 10 ^ places) : ℚ) *
        10 ^ (-places)) := by
  obtain ⟨he, hv⟩ := Decimal.Round_eq d places hde hp
  refine ⟨he, hv, ?_, Decimal.divRound_eq d d2 places hd2 hde hd2e hp⟩
  obtain ⟨he2, hv2⟩ := Decimal.Round_eq d.Neg places
    (by rw [show d.Neg.exp = d.exp from rfl]; exact hde) hp
  apply Decimal.ext_toRat
  · rw [he2, show (d.Round places).Neg.exp = (d.Round places).exp from rfl, he]
  · rw [hv2, Decimal.toRat_neg, Decimal.toRat_neg, hv,
      show -d.toRat * 10 ^ places = -(d.toRat * 10 ^ places) by ring,
      roundAwayQ_neg]
    push_cast
    ring

/-- Witness for C9 at `5.45`, one place, divisor 2: `Round` gives `5.5`
and `divRound` gives `2.7` (2.725 truncated at scale 1 plus the half-away
step). -/
theorem C9_rounding_witness :
    (Decimal.Round ⟨545, -2⟩ 1).toRat =
      (roundAwayQ (Decimal.toRat ⟨545, -2⟩ * 10 ^ (1 : ℤ)) : ℚ) * 10 ^ (-1 : ℤ) ∧
    Decimal.Round (Decimal.Neg ⟨545, -2⟩) 1 = Decimal.Neg (Decimal.Round ⟨545, -2⟩ 1) := by
  have h := C9_rounding ⟨545, -2⟩ ⟨2, 0⟩ 1 (by decide) (by decide) (by decide) (by decide)
  exact ⟨h.2.1, h.2.2.1⟩

/-! ## Digit-string infrastructure for the formatter and parser claims -/

theorem digitVal_digitChar {d : Nat} (h : d < 10) : digitVal (digitChar d) = d := by
  interval_cases d <;> decide

theorem isDig_digitChar {d : Nat} (h : d < 10) : isDig (digitChar d) = true := by
  interval_cases d <;> decide

theorem decDigits_ne_nil (n : Nat) : decDigits n ≠ [] := by
  unfold decDigits
  split_ifs with h
  · simp
  · intro hcon
    rw [List.reverse_eq_nil_iff, List.map_eq_nil_iff] at hcon
    exact h (Nat.digits_eq_nil_iff_eq_zero.mp hcon)

theorem decDigits_all_digit (n : Nat) : ∀ c ∈ decDigits n, isDig c = true := by
  unfold decDigits
  split_ifs with h
  · intro c hc
    rw [List.mem_singleton] at hc
    rw [hc]
    decide
  · intro c hc
    rw [List.mem_reverse, List.mem_map] at hc
    obtain ⟨x, hx, hcx⟩ := hc
    rw [← hcx]
    exact isDig_digitChar (Nat.digits_lt_base (by norm_num) hx)

theorem digitsToNat_from (l : List Char) (n : Nat) :
    l.foldl (fun n c => n * 10 + digitVal c) n = n * 10 ^ l.length + digitsToNat l := by
  induction l generalizing n with
  | nil => simp [digitsToNat]
  | cons c t ih =>
    rw [List.foldl_cons]
    rw [ih (n * 10 + digitVal c)]
    unfold digitsToNat
    rw [List.foldl_cons, ih (0 * 10 + digitVal c)]
    simp only [List.length_cons]
    rw [show List.foldl (fun n c => n * 10 + digitVal c) 0 t = digitsToNat t from rfl]
    ring

theorem digitsToNat_append (a b : List Char) :
    digitsToNat (a ++ b) = digitsToNat a * 10 ^ b.length + digitsToNat b := by
  unfold digitsToNat
  rw [List.foldl_append]
  rw [show (List.foldl (fun n c => n * 10 + digitVal c) 0 a) = digitsToNat a from rfl]
  exact digitsToNat_from b (digitsToNat a)

theorem digitsToNat_replicate_zero (k : Nat) :
    digitsToNat (List.replicate k '0') = 0 := by
  induction k with
  | zero => rfl
  | succ m ih =>
    rw [show m + 1 = 1 + m by omega, List.replicate_add]
    rw [digitsToNat_append, ih]
    rw [show (List.replicate 1 '0') = ['0'] from rfl,
      show digitsToNat ['0'] = 0 from by decide]
    norm_num

theorem digitsToNat_ofDigits (L : List Nat) (h : ∀ x ∈ L, x < 10) :
    digitsToNat ((L.map digitChar).reverse) = Nat.ofDigits 10 L := by
  induction L with
  | nil => rfl
  | cons x t ih =>
    rw [List.map_cons, List.reverse_cons, digitsToNat_append]
    rw [ih (fun y hy => h y (List.mem_cons_of_mem x hy))]
    rw [Nat.ofDigits_cons]
    rw [show digitsToNat [digitChar x] = digitVal (digitChar x) from by
      simp [digitsToNat]]
    rw [digitVal_digitChar (h x (List.mem_cons_self x t))]
    simp only [List.length_singleton, pow_one]
    ring

theorem digitsToNat_decDigits (n : Nat) : digitsToNat (decDigits n) = n := by
  unfold decDigits
  split_ifs with h
  · rw [h]
    rfl
  · rw [digitsToNat_ofDigits _ (fun x hx => Nat.digits_lt_base (by norm_num) hx),
      Nat.ofDigits_digits]

/-! ## Parser lemmas -/

theorem isDig_ne_dot {c : Char} (h : isDig c = true) : ¬ (c = '.') := by
  intro hc
  rw [hc] at h
  exact absurd h (by decide)

theorem isDig_ne_plus {c : Char} (h : isDig c = true) : ¬ (c = '+') := by
  intro hc
  rw [hc] at h
  exact absurd h (by decide)

theorem isDig_ne_minus {c : Char} (h : isDig c = true) : ¬ (c = '-') := by
  intro hc
  rw [hc] at h
  exact absurd h (by decide)

theorem digitVal_le_nine {c : Char} (h : isDig c = true) : digitVal c ≤ 9 := by
  unfold isDig at h
  rw [Bool.and_eq_true, decide_eq_true_eq, decide_eq_true_eq] at h
  obtain ⟨h1, h2⟩ := h
  unfold digitVal
  have : c.toNat ≤ 57 := h2
  omega

theorem digitsToNat_cons (c : Char) (t : List Char) :
    digitsToNat (c :: t) = digitVal c * 10 ^ t.length + digitsToNat t := by
  rw [show c :: t = [c] ++ t from rfl, digitsToNat_append]
  have : digitsToNat [c] = digitVal c := by
    unfold digitsToNat
    simp
  rw [this]

theorem digitsToNat_lt (t : List Char) (h : ∀ c ∈ t, isDig c = true) :
    digitsToNat t < 10 ^ t.length := by
  induction t with
  | nil =>
    unfold digitsToNat
    simp
  | cons c cs ih =>
    rw [digitsToNat_cons]
    have h9 := digitVal_le_nine (h c (List.mem_cons_self c cs))
    have hrec := ih (fun x hx => h x (List.mem_cons_of_mem c hx))
    rw [List.length_cons, pow_succ]
    nlinarith [pow_pos (show 0 < 10 by norm_num) cs.length]

theorem cutoff_eq : cutoff = 1844674407370955162 := by norm_num [cutoff]

theorem p64loop_seg (a : List Char) (rest : List Char) (i : Nat) (dot : Option Nat) (n : Nat)
    (ha : ∀ c ∈ a, isDig c = true)
    (hinv : n * 10 ^ a.length + digitsToNat a < cutoff) :
    p64loop (a ++ rest) i dot n =
      p64loop rest (i + a.length) dot (n * 10 ^ a.length + digitsToNat a) := by
  induction a generalizing i n with
  | nil =>
    simp [digitsToNat]
  | cons c cs ih =>
    have hc := ha c (List.mem_cons_self c cs)
    have hfull : (n * 10 + digitVal c) * 10 ^ cs.length + digitsToNat cs =
        n * 10 ^ (c :: cs).length + digitsToNat (c :: cs) := by
      rw [digitsToNat_cons, List.length_cons, pow_succ]
      ring
    have hn1lt : n * 10 + digitVal c < cutoff := by
      have hpos : 1 ≤ 10 ^ cs.length := Nat.one_le_pow _ _ (by norm_num)
      have := hinv
      rw [← hfull] at this
      nlinarith
    have hnlt : n < cutoff := by
      have hpos : 1 ≤ 10 ^ cs.length := Nat.one_le_pow _ _ (by norm_num)
      nlinarith
    have hten : n * 10 < 2 ^ 64 := by
      rw [cutoff_eq] at hnlt
      omega
    have hadd : n * 10 + digitVal c < 2 ^ 64 := by
      rw [cutoff_eq] at hn1lt
      omega
    rw [List.cons_append]
    show (if c = '.' then
        match dot with
        | some _ => Except.error P64Err.tooManyDots
        | none => p64loop (cs ++ rest) (i + 1) (some i) n
      else
        if isDig c = true then
          if cutoff ≤ n then Except.error P64Err.overflow
          else
            let nm := n * 10 % 2 ^ 64
            let n1 := (nm + digitVal c) % 2 ^ 64
            if n1 < nm then Except.error P64Err.overflow
            else p64loop (cs ++ rest) (i + 1) dot n1
        else Except.error (P64Err.unexpectedChar c)) = _
    rw [if_neg (isDig_ne_dot hc), if_pos hc, if_neg (not_le.mpr hnlt)]
    simp only [Nat.mod_eq_of_lt hten, Nat.mod_eq_of_lt hadd]
    rw [if_neg (by omega)]
    rw [ih (i + 1) (n * 10 + digitVal c)
      (fun x hx => ha x (List.mem_cons_of_mem c hx))
      (by rw [hfull]; exact hinv)]
    rw [hfull]
    congr 1
    simp [List.length_cons]
    omega


theorem p64loop_cons (c : Char) (cs : List Char) (i : Nat) (dot : Option Nat) (n : Nat) :
    p64loop (c :: cs) i dot n =
      if c = '.' then
        match dot with
        | some _ => Except.error P64Err.tooManyDots
        | none => p64loop cs (i + 1) (some i) n
      else
        if isDig c = true then
          if cutoff ≤ n then Except.error P64Err.overflow
          else
            let nm := n * 10 % 2 ^ 64
            let n1 := (nm + digitVal c) % 2 ^ 64
            if n1 < nm then Except.error P64Err.overflow
            else p64loop cs (i + 1) dot n1
        else Except.error (P64Err.unexpectedChar c) := rfl

theorem p64loop_no_overflow (cs : List Char) (i : Nat) (dot : Option Nat) (n : Nat)
    (hinv : n * 10 ^ (cs.countP (fun c => isDig c)) +
      (10 ^ (cs.countP (fun c => isDig c)) - 1) < cutoff) :
    p64loop cs i dot n ≠ .error .overflow := by
  induction cs generalizing i dot n with
  | nil =>
    intro hcon
    simp [p64loop] at hcon
  | cons c cs ih =>
    rw [p64loop_cons]
    by_cases hdotc : c = '.'
    · rw [if_pos hdotc]
      cases dot with
      | some p => intro hcon; simp at hcon
      | none =>
        refine ih (i + 1) (some i) n ?_
        have hcP : (List.countP (fun c => isDig c) (c :: cs)) =
            List.countP (fun c => isDig c) cs := by
          rw [List.countP_cons, hdotc]
          simp [show isDig '.' = false from by decide]
        rwa [hcP] at hinv
    · by_cases hdig : isDig c = true
      · have hcP : (List.countP (fun c => isDig c) (c :: cs)) =
            List.countP (fun c => isDig c) cs + 1 := by
          rw [List.countP_cons, if_pos hdig]
        rw [hcP] at hinv
        have hk1 : 1 ≤ 10 ^ (List.countP (fun c => isDig c) cs) :=
          Nat.one_le_pow _ _ (by norm_num)
        have hstep : (n * 10 + digitVal c) * 10 ^ (List.countP (fun c => isDig c) cs) +
            (10 ^ (List.countP (fun c => isDig c) cs) - 1) < cutoff := by
          have h9 := digitVal_le_nine hdig
          have e1 : (n * 10 + digitVal c) * 10 ^ (List.countP (fun c => isDig c) cs) =
              n * (10 ^ List.countP (fun c => isDig c) cs * 10) +
              digitVal c * 10 ^ List.countP (fun c => isDig c) cs := by ring
          have e2 : digitVal c * 10 ^ List.countP (fun c => isDig c) cs ≤
              9 * 10 ^ List.countP (fun c => isDig c) cs :=
            Nat.mul_le_mul h9 le_rfl
          rw [pow_succ] at hinv
          omega
        have hn1 : n * 10 + digitVal c < cutoff := by
          have hle : n * 10 + digitVal c ≤
              (n * 10 + digitVal c) * 10 ^ (List.countP (fun c => isDig c) cs) :=
            le_mul_of_one_le_right (Nat.zero_le _) hk1
          omega
        have hnlt : n < cutoff := by omega
        have hten : n * 10 < 2 ^ 64 := by rw [cutoff_eq] at hnlt; omega
        have hadd : n * 10 + digitVal c < 2 ^ 64 := by rw [cutoff_eq] at hn1; omega
        rw [if_neg hdotc, if_pos hdig, if_neg (not_le.mpr hnlt)]
        simp only [Nat.mod_eq_of_lt hten, Nat.mod_eq_of_lt hadd]
        rw [if_neg (by omega)]
        exact ih (i + 1) dot (n * 10 + digitVal c) hstep
      · rw [if_neg hdotc, if_neg hdig]
        intro hcon
        simp at hcon

theorem p64loop_ok_iff (cs : List Char) (i : Nat) (dot : Option Nat) (n : Nat)
    (hinv : n * 10 ^ (cs.countP (fun c => isDig c)) +
      (10 ^ (cs.countP (fun c => isDig c)) - 1) < cutoff) :
    (p64loop cs i dot n).isOk = true ↔
      ((∀ c ∈ cs, isDig c = true ∨ c = '.') ∧
       (dot = none → cs.count '.' ≤ 1) ∧ (dot ≠ none → cs.count '.' = 0)) := by
  induction cs generalizing i dot n with
  | nil =>
    simp [p64loop, Except.isOk, Except.toBool]
  | cons c cs ih =>
    rw [p64loop_cons]
    by_cases hdotc : c = '.'
    · subst hdotc
      rw [if_pos rfl]
      cases dot with
      | some p =>
        rw [show (Except.error P64Err.tooManyDots :
            Except P64Err (Nat × Option Nat)).isOk = false from rfl]
        constructor
        · intro h; simp at h
        · rintro ⟨-, -, h3⟩
          have := h3 (by simp)
          rw [List.count_cons] at this
          simp at this
      | none =>
        have hcP : (List.countP (fun c => isDig c) ('.' :: cs)) =
            List.countP (fun c => isDig c) cs := by
          rw [List.countP_cons]
          simp [show isDig '.' = false from by decide]
        rw [hcP] at hinv
        rw [ih (i + 1) (some i) n hinv]
        constructor
        · rintro ⟨h1, -, h3⟩
          have hcnt := h3 (by simp)
          refine ⟨?_, ?_, fun h => absurd rfl h⟩
          · intro x hx
            rcases List.mem_cons.mp hx with h | h
            · exact Or.inr h
            · exact h1 x h
          · intro _
            rw [List.count_cons]
            simp [hcnt]
        · rintro ⟨h1, h2, -⟩
          have hcnt := h2 rfl
          rw [List.count_cons] at hcnt
          simp at hcnt
          refine ⟨fun x hx => h1 x (List.mem_cons_of_mem _ hx),
            fun h => by simp at h, fun _ => by omega⟩
    · by_cases hdig : isDig c = true
      · have hcP : (List.countP (fun c => isDig c) (c :: cs)) =
            List.countP (fun c => isDig c) cs + 1 := by
          rw [List.countP_cons, if_pos hdig]
        rw [hcP] at hinv
        have hk1 : 1 ≤ 10 ^ (List.countP (fun c => isDig c) cs) :=
          Nat.one_le_pow _ _ (by norm_num)
        have hstep : (n * 10 + digitVal c) * 10 ^ (List.countP (fun c => isDig c) cs) +
            (10 ^ (List.countP (fun c => isDig c) cs) - 1) < cutoff := by
          have h9 := digitVal_le_nine hdig
          have e1 : (n * 10 + digitVal c) * 10 ^ (List.countP (fun c => isDig c) cs) =
              n * (10 ^ List.countP (fun c => isDig c) cs * 10) +
              digitVal c * 10 ^ List.countP (fun c => isDig c) cs := by ring
          have e2 : digitVal c * 10 ^ List.countP (fun c => isDig c) cs ≤
              9 * 10 ^ List.countP (fun c => isDig c) cs :=
            Nat.mul_le_mul h9 le_rfl
          rw [pow_succ] at hinv
          omega
        have hn1 : n * 10 + digitVal c < cutoff := by
          have hle : n * 10 + digitVal c ≤
              (n * 10 + digitVal c) * 10 ^ (List.countP (fun c => isDig c) cs) :=
            le_mul_of_one_le_right (Nat.zero_le _) hk1
          omega
        have hnlt : n < cutoff := by omega
        have hten : n * 10 < 2 ^ 64 := by rw [cutoff_eq] at hnlt; omega
        have hadd : n * 10 + digitVal c < 2 ^ 64 := by rw [cutoff_eq] at hn1; omega
        rw [if_neg hdotc, if_pos hdig, if_neg (not_le.mpr hnlt)]
        simp only [Nat.mod_eq_of_lt hten, Nat.mod_eq_of_lt hadd]
        rw [if_neg (by omega)]
        rw [ih (i + 1) dot (n * 10 + digitVal c) hstep]
        have hcount : (c :: cs).count '.' = cs.count '.' := by
          rw [List.count_cons]
          simp [hdotc]
        constructor
        · rintro ⟨h1, h2, h3⟩
          refine ⟨?_, ?_, ?_⟩
          · intro x hx
            rcases List.mem_cons.mp hx with h | h
            · exact Or.inl (h ▸ hdig)
            · exact h1 x h
          · intro hd
            rw [hcount]
            exact h2 hd
          · intro hd
            rw [hcount]
            exact h3 hd
        · rintro ⟨h1, h2, h3⟩
          refine ⟨fun x hx => h1 x (List.mem_cons_of_mem _ hx), ?_, ?_⟩
          · intro hd
            rw [hcount] at h2
            exact h2 hd
          · intro hd
            rw [hcount] at h3
            exact h3 hd
      · rw [if_neg hdotc, if_neg hdig]
        rw [show (Except.error (P64Err.unexpectedChar c) :
            Except P64Err (Nat × Option Nat)).isOk = false from rfl]
        constructor
        · intro h; simp at h
        · rintro ⟨h1, -, -⟩
          rcases h1 c (List.mem_cons_self c cs) with h | h
          · exact absurd h hdig
          · exact absurd h hdotc


theorem parseDecimal64_digits (s : List Char) (hd : ∀ c ∈ s, isDig c = true)
    (hlt : digitsToNat s < cutoff) :
    parseDecimal64 s = .ok ⟨(digitsToNat s : Int), 0⟩ := by
  unfold parseDecimal64
  have hseg := p64loop_seg s [] 0 none 0 hd (by simpa using hlt)
  rw [List.append_nil] at hseg
  rw [hseg]
  simp [p64loop]

theorem parseDecimal64_dotted (a b : List Char)
    (ha : ∀ c ∈ a, isDig c = true) (hb : ∀ c ∈ b, isDig c = true)
    (hlt : digitsToNat (a ++ b) < cutoff)
    (hblen : (b.length : Int) < i32bound) :
    parseDecimal64 (a ++ '.' :: b) =
      .ok ⟨(digitsToNat (a ++ b) : Int), -(b.length : Int)⟩ := by
  have hab : digitsToNat (a ++ b) = digitsToNat a * 10 ^ b.length + digitsToNat b :=
    digitsToNat_append a b
  have hka : 1 ≤ 10 ^ b.length := Nat.one_le_pow _ _ (by norm_num)
  have hlta : digitsToNat a < cutoff := by
    have : digitsToNat a ≤ digitsToNat a * 10 ^ b.length :=
      le_mul_of_one_le_right (Nat.zero_le _) hka
    omega
  unfold parseDecimal64
  rw [p64loop_seg a ('.' :: b) 0 none 0 ha (by simpa using hlta)]
  rw [p64loop_cons, if_pos rfl]
  have hseg := p64loop_seg b [] (0 + a.length + 1) (some (0 + a.length))
    (0 * 10 ^ a.length + digitsToNat a) hb (by simpa using (hab ▸ hlt))
  rw [List.append_nil] at hseg
  rw [hseg]
  simp only [p64loop]
  have hv : (0 * 10 ^ a.length + digitsToNat a) * 10 ^ b.length + digitsToNat b =
      digitsToNat (a ++ b) := by
    rw [hab]
    ring
  rw [hv]
  have hexp : ((a ++ '.' :: b).length : Int) - ((0 + a.length : Nat) : Int) - 1 =
      (b.length : Int) := by
    rw [List.length_append, List.length_cons]
    push_cast
    ring
  rw [hexp, toInt32_eq_self (by unfold i32bound; omega) hblen]

theorem parseDecimal64_isOk (s : List Char) :
    (parseDecimal64 s).isOk = (p64loop s 0 none 0).isOk := by
  unfold parseDecimal64
  rcases h : p64loop s 0 none 0 with e | ⟨n, dot⟩ <;> rfl

theorem dotIndex_none (s : List Char) (h : ∀ c ∈ s, ¬ (c = '.')) :
    dotIndex s = none := by
  unfold dotIndex
  rw [List.findIdx?_eq_none_iff]
  intro x hx
  simpa using h x hx

theorem dotIndex_append (a b : List Char) (h : ∀ c ∈ a, ¬ (c = '.')) :
    dotIndex (a ++ '.' :: b) = some a.length := by
  unfold dotIndex
  rw [List.findIdx?_append]
  rw [List.findIdx?_eq_none_iff.mpr (fun x hx => by simpa using h x hx)]
  rw [List.findIdx?_cons, if_pos (by simp)]
  simp

theorem setStringInt_digits (t : List Char) (hne : t ≠ []) (hd : ∀ c ∈ t, isDig c = true) :
    setStringInt t = some ((digitsToNat t : Int)) := by
  match t, hne with
  | c :: rest, _ =>
    have hc := hd c (List.mem_cons_self c rest)
    rw [setStringInt]
    rw [if_neg (isDig_ne_plus hc), if_neg (isDig_ne_minus hc)]
    rw [if_pos (by rw [List.all_eq_true]; intro x hx; exact hd x (by simpa using hx))]


theorem slowPath_digits (original s : List Char) (neg : Bool)
    (hne : s ≠ []) (hd : ∀ c ∈ s, isDig c = true) :
    slowPath original s neg =
      .ok ⟨if neg then -(digitsToNat s : Int) else (digitsToNat s : Int), 0⟩ := by
  unfold slowPath
  simp only [dotIndex_none s (fun c hc => isDig_ne_dot (hd c hc)),
    setStringInt_digits s hne hd]

theorem slowPath_dotted (original a b : List Char) (neg : Bool)
    (ha : ∀ c ∈ a, isDig c = true) (hb : ∀ c ∈ b, isDig c = true)
    (hne : a ++ b ≠ []) :
    slowPath original (a ++ '.' :: b) neg =
      .ok ⟨if neg then -(digitsToNat (a ++ b) : Int) else (digitsToNat (a ++ b) : Int),
           toInt32 (-(toInt32 ((b.length : Int))))⟩ := by
  unfold slowPath
  have hdi := dotIndex_append a b (fun c hc => isDig_ne_dot (ha c hc))
  have hdrop : (a ++ '.' :: b).drop (a.length + 1) = b :=
    List.drop_append 1
  have htake : (a ++ '.' :: b).take a.length = a := List.take_left a ('.' :: b)
  have hmem : ¬ ('.' ∈ b) := fun hc => isDig_ne_dot (hb _ hc) rfl
  have hall : ∀ c ∈ a ++ b, isDig c = true := by
    intro c hc
    rcases List.mem_append.mp hc with h | h
    · exact ha c h
    · exact hb c h
  simp only [hdi, hdrop, htake, if_neg hmem, setStringInt_digits (a ++ b) hne hall]


theorem toInt32_neg_toInt32 {L : Int} (h1 : 0 ≤ L) (h2 : L ≤ i32bound) :
    toInt32 (-(toInt32 L)) = -L := by
  unfold toInt32 i32bound at *
  omega

theorem NewFromMySQL_digits (neg : Bool) (body : List Char)
    (hne : body ≠ []) (hd : ∀ c ∈ body, isDig c = true) :
    NewFromMySQL ((if neg then ['-'] else []) ++ body) =
      .ok ⟨if neg then -(digitsToNat body : Int) else (digitsToNat body : Int), 0⟩ := by
  have hlen0 : ¬ (body.length = 0) := by
    intro hcon
    exact hne (List.length_eq_zero.mp hcon)
  have hstrip : stripSign ((if neg then ['-'] else []) ++ body) = (neg, body) := by
    cases neg
    · match body, hne with
      | c :: rest, _ =>
        have hc := hd c (List.mem_cons_self c rest)
        show stripSign (c :: rest) = _
        rw [stripSign]
        rw [if_neg (isDig_ne_plus hc), if_neg (isDig_ne_minus hc)]
    · show stripSign ('-' :: body) = _
      rfl
  unfold NewFromMySQL
  simp only [hstrip]
  rw [if_neg hlen0]
  by_cases hL : body.length ≤ 18
  · rw [if_pos hL]
    have hcut : digitsToNat body < cutoff := by
      have h1 := digitsToNat_lt body hd
      have h2 : (10 : Nat) ^ body.length ≤ 10 ^ 18 :=
        Nat.pow_le_pow_right (by norm_num) hL
      rw [cutoff_eq]
      omega
    rw [parseDecimal64_digits body hd hcut]
    cases neg <;> rfl
  · rw [if_neg hL]
    rw [slowPath_digits _ body neg hne hd]

theorem NewFromMySQL_dotted (neg : Bool) (a b : List Char)
    (ha : ∀ c ∈ a, isDig c = true) (hb : ∀ c ∈ b, isDig c = true)
    (habne : a ++ b ≠ []) (hblen : (b.length : Int) ≤ i32bound) :
    NewFromMySQL ((if neg then ['-'] else []) ++ (a ++ '.' :: b)) =
      .ok ⟨if neg then -(digitsToNat (a ++ b) : Int) else (digitsToNat (a ++ b) : Int),
           -(b.length : Int)⟩ := by
  have hlen0 : ¬ ((a ++ '.' :: b).length = 0) := by
    simp [List.length_append]
  have hstrip : stripSign ((if neg then ['-'] else []) ++ (a ++ '.' :: b)) =
      (neg, a ++ '.' :: b) := by
    cases neg
    · match a, b, habne with
      | c :: rest, b, _ =>
        have hc := ha c (List.mem_cons_self c rest)
        show stripSign (c :: (rest ++ '.' :: b)) = _
        rw [stripSign]
        rw [if_neg (isDig_ne_plus hc), if_neg (isDig_ne_minus hc)]
        rfl
      | [], b, _ =>
        show stripSign ('.' :: b) = _
        rfl
    · show stripSign ('-' :: (a ++ '.' :: b)) = _
      rfl
  unfold NewFromMySQL
  simp only [hstrip]
  rw [if_neg hlen0]
  by_cases hL : (a ++ '.' :: b).length ≤ 18
  · rw [if_pos hL]
    have hlens : a.length + b.length ≤ 17 := by
      rw [List.length_append, List.length_cons] at hL
      omega
    have hcut : digitsToNat (a ++ b) < cutoff := by
      have h1 := digitsToNat_lt (a ++ b) (by
        intro c hc
        rcases List.mem_append.mp hc with h | h
        · exact ha c h
        · exact hb c h)
      have h2 : (10 : Nat) ^ (a ++ b).length ≤ 10 ^ 17 := by
        refine Nat.pow_le_pow_right (by norm_num) ?_
        rw [List.length_append]
        omega
      rw [cutoff_eq]
      omega
    rw [parseDecimal64_dotted a b ha hb hcut (by unfold i32bound; omega)]
    cases neg <;> rfl
  · rw [if_neg hL]
    rw [slowPath_dotted _ a b neg ha hb habne]
    rw [toInt32_neg_toInt32 (by positivity) hblen]


theorem wf_decomp (s : List Char)
    (hwf : ∀ c ∈ s, isDig c = true ∨ c = '.')
    (hcnt : s.count '.' ≤ 1) :
    (∀ c ∈ s, isDig c = true) ∨
    ∃ a b, s = a ++ '.' :: b ∧ (∀ c ∈ a, isDig c = true) ∧
      (∀ c ∈ b, isDig c = true) := by
  by_cases hdot : '.' ∈ s
  · obtain ⟨a, b, rfl⟩ := List.mem_iff_append.mp hdot
    rw [List.count_append, List.count_cons] at hcnt
    rw [if_pos (by decide : (('.' : Char) == '.') = true)] at hcnt
    have hza : a.count '.' = 0 := by omega
    have hzb : b.count '.' = 0 := by omega
    rw [List.count_eq_zero] at hza hzb
    right
    refine ⟨a, b, rfl, ?_, ?_⟩
    · intro c hc
      rcases hwf c (List.mem_append.mpr (Or.inl hc)) with h | h
      · exact h
      · exact absurd (h ▸ hc) hza
    · intro c hc
      rcases hwf c (List.mem_append.mpr (Or.inr (List.mem_cons_of_mem _ hc))) with h | h
      · exact h
      · exact absurd (h ▸ hc) hzb
  · left
    intro c hc
    rcases hwf c hc with h | h
    · exact h
    · exact absurd (h ▸ hc) hdot

theorem parseDecimal64_no_overflow (s : List Char) (hlen : s.length ≤ 18) :
    parseDecimal64 s ≠ .error .overflow := by
  have hk : s.countP (fun c => isDig c) ≤ 18 :=
    le_trans (List.countP_le_length _) hlen
  have hinv : 0 * 10 ^ (s.countP (fun c => isDig c)) +
      (10 ^ (s.countP (fun c => isDig c)) - 1) < cutoff := by
    have h2 : (10 : Nat) ^ (s.countP (fun c => isDig c)) ≤ 10 ^ 18 :=
      Nat.pow_le_pow_right (by norm_num) hk
    rw [cutoff_eq]
    omega
  have h := p64loop_no_overflow s 0 none 0 hinv
  unfold parseDecimal64
  rcases hp : p64loop s 0 none 0 with e | ⟨n, dot⟩
  · intro hcon
    apply h
    rw [hp]
    have he : e = P64Err.overflow := by
      have := hcon
      injection this with h2
    rw [he]
  · intro hcon
    exact Except.noConfusion hcon


theorem setStringInt_isSome_iff (t : List Char) :
    (setStringInt t).isSome = true ↔
      ((t ≠ [] ∧ ∀ c ∈ t, isDig c = true) ∨
       (∃ c rest, t = c :: rest ∧ (c = '+' ∨ c = '-') ∧ rest ≠ [] ∧
         ∀ c2 ∈ rest, isDig c2 = true)) := by
  rcases t with _ | ⟨c, rest⟩
  · constructor
    · intro h
      simp [setStringInt] at h
    · rintro (⟨h, -⟩ | ⟨c, r, h, -⟩)
      · exact absurd rfl h
      · exact List.noConfusion h
  · rw [setStringInt]
    by_cases hp : c = '+'
    · subst hp
      rw [if_pos rfl]
      constructor
      · intro h
        split_ifs at h with hcond
        · exact Or.inr ⟨'+', rest, rfl, Or.inl rfl, hcond.1,
            List.all_eq_true.mp hcond.2⟩
        · simp at h
      · rintro (⟨-, hall⟩ | ⟨c2, r2, heq, -, hr2ne, hr2⟩)
        · have := hall '+' (List.mem_cons_self _ _)
          exact absurd this (by decide)
        · obtain ⟨-, rfl⟩ : c2 = '+' ∧ r2 = rest :=
            ⟨(List.cons.injEq _ _ _ _ ▸ heq).1.symm ▸ rfl, (List.cons.inj heq).2.symm⟩
          rw [if_pos ⟨hr2ne, List.all_eq_true.mpr hr2⟩]
          rfl
    · by_cases hm : c = '-'
      · subst hm
        rw [if_neg hp, if_pos rfl]
        constructor
        · intro h
          split_ifs at h with hcond
          · exact Or.inr ⟨'-', rest, rfl, Or.inr rfl, hcond.1,
              List.all_eq_true.mp hcond.2⟩
          · simp at h
        · rintro (⟨-, hall⟩ | ⟨c2, r2, heq, -, hr2ne, hr2⟩)
          · have := hall '-' (List.mem_cons_self _ _)
            exact absurd this (by decide)
          · obtain ⟨-, rfl⟩ : c2 = '-' ∧ r2 = rest :=
              ⟨(List.cons.inj heq).1.symm ▸ rfl, (List.cons.inj heq).2.symm⟩
            rw [if_pos ⟨hr2ne, List.all_eq_true.mpr hr2⟩]
            rfl
      · rw [if_neg hp, if_neg hm]
        constructor
        · intro h
          split_ifs at h with hcond
          · exact Or.inl ⟨List.cons_ne_nil _ _, List.all_eq_true.mp hcond⟩
          · simp at h
        · rintro (⟨-, hall⟩ | ⟨c2, r2, heq, hsgn, -, -⟩)
          · rw [if_pos (List.all_eq_true.mpr hall)]
            rfl
          · have hc2 : c2 = c := ((List.cons.inj heq).1).symm
            rcases hsgn with h | h
            · exact absurd (hc2 ▸ h) hp
            · exact absurd (hc2 ▸ h) hm


theorem slowPath_eq_nodot (original s : List Char) (neg : Bool)
    (hd : dotIndex s = none) :
    slowPath original s neg =
      (match setStringInt s with
       | none => .error (msgCant original)
       | some v => .ok ⟨if neg then -v else v, 0⟩) := by
  unfold slowPath
  rw [hd]

theorem slowPath_eq_twodots (original s : List Char) (neg : Bool) (p : Nat)
    (hd : dotIndex s = some p) (hdot : '.' ∈ s.drop (p + 1)) :
    slowPath original s neg = .error (msgDots original) := by
  unfold slowPath
  simp only [hd, if_pos hdot]

theorem slowPath_eq_dot (original s : List Char) (neg : Bool) (p : Nat)
    (hd : dotIndex s = some p) (hdot : '.' ∉ s.drop (p + 1)) :
    slowPath original s neg =
      (match setStringInt (s.take p ++ s.drop (p + 1)) with
       | none => .error (msgCant original)
       | some v => .ok ⟨if neg then -v else v,
           toInt32 (-(toInt32 (((s.drop (p + 1)).length : Int))))⟩) := by
  unfold slowPath
  simp only [hd, if_neg hdot]

theorem slowPath_ok_iff (original s : List Char) (neg : Bool) :
    (slowPath original s neg).isOk = true ↔
      ∃ t, ((dotIndex s = none ∧ t = s) ∨
            (∃ p, dotIndex s = some p ∧ '.' ∉ s.drop (p + 1) ∧
              t = s.take p ++ s.drop (p + 1))) ∧
        (setStringInt t).isSome = true := by
  rcases hd : dotIndex s with _ | p
  · rw [slowPath_eq_nodot original s neg hd]
    rcases hst : setStringInt s with _ | v
    · constructor
      · intro h
        simp [Except.isOk, Except.toBool] at h
      · rintro ⟨t, (⟨_, rfl⟩ | ⟨p, hp, _, _⟩), hsome⟩
        · rw [hst] at hsome
          simp at hsome
        · exact Option.noConfusion hp
    · constructor
      · intro _
        exact ⟨s, Or.inl ⟨rfl, rfl⟩, by rw [hst]; rfl⟩
      · intro _
        rfl
  · by_cases hdot : '.' ∈ s.drop (p + 1)
    · rw [slowPath_eq_twodots original s neg p hd hdot]
      constructor
      · intro h
        simp [Except.isOk, Except.toBool] at h
      · rintro ⟨t, (⟨hnone, _⟩ | ⟨p2, hp2, hnd, _⟩), _⟩
        · exact Option.noConfusion hnone
        · have hpp : p2 = p := Option.some.inj hp2.symm
          exact absurd hdot (hpp ▸ hnd)
    · rw [slowPath_eq_dot original s neg p hd hdot]
      rcases hst : setStringInt (s.take p ++ s.drop (p + 1)) with _ | v
      · constructor
        · intro h
          simp [Except.isOk, Except.toBool] at h
        · rintro ⟨t, (⟨hnone, _⟩ | ⟨p2, hp2, _, htp⟩), hsome⟩
          · exact Option.noConfusion hnone
          · have hpp : p2 = p := Option.some.inj hp2.symm
            rw [htp, hpp, hst] at hsome
            simp at hsome
      · constructor
        · intro _
          exact ⟨s.take p ++ s.drop (p + 1),
            Or.inr ⟨p, rfl, hdot, rfl⟩, by rw [hst]; rfl⟩
        · intro _
          rfl

theorem slowPath_error_echo (original s : List Char) (neg : Bool) (e : List Char)
    (h : slowPath original s neg = .error e) :
    ∃ pre post, e = pre ++ original ++ post := by
  rcases hd : dotIndex s with _ | p
  · rw [slowPath_eq_nodot original s neg hd] at h
    rcases hst : setStringInt s with _ | v
    · rw [hst] at h
      have he : e = msgCant original := (Except.error.inj h).symm
      exact ⟨"can't convert ".toList, " to decimal".toList, by rw [he]; rfl⟩
    · rw [hst] at h
      exact Except.noConfusion h
  · by_cases hdot : '.' ∈ s.drop (p + 1)
    · rw [slowPath_eq_twodots original s neg p hd hdot] at h
      have he : e = msgDots original := (Except.error.inj h).symm
      exact ⟨"can't convert ".toList, " to decimal: too many .s".toList,
        by rw [he]; rfl⟩
    · rw [slowPath_eq_dot original s neg p hd hdot] at h
      rcases hst : setStringInt (s.take p ++ s.drop (p + 1)) with _ | v
      · rw [hst] at h
        have he : e = msgCant original := (Except.error.inj h).symm
        exact ⟨"can't convert ".toList, " to decimal".toList, by rw [he]; rfl⟩
      · rw [hst] at h
        exact Except.noConfusion h


theorem NewFromMySQL_eq (input : List Char) (neg : Bool) (s : List Char)
    (hstrip : stripSign input = (neg, s)) :
    NewFromMySQL input =
      (if s.length = 0 then .error (msgTooShort input)
       else if s.length ≤ 18 then
         match parseDecimal64 s with
         | .ok dec => .ok (if neg then ⟨-dec.value, dec.exp⟩ else dec)
         | .error .overflow => slowPath input s neg
         | .error e => .error (msgWrap input e)
       else slowPath input s neg) := by
  unfold NewFromMySQL
  rw [hstrip]

theorem parseDecimal64_wf_iff (s : List Char) (hlen : s.length ≤ 18) :
    (parseDecimal64 s).isOk = true ↔
      ((∀ c ∈ s, isDig c = true ∨ c = '.') ∧ s.count '.' ≤ 1) := by
  rw [parseDecimal64_isOk]
  have hk : s.countP (fun c => isDig c) ≤ 18 :=
    le_trans (List.countP_le_length _) hlen
  have hinv : (0 : Nat) * 10 ^ (s.countP (fun c => isDig c)) +
      (10 ^ (s.countP (fun c => isDig c)) - 1) < cutoff := by
    have h2 : (10 : Nat) ^ (s.countP (fun c => isDig c)) ≤ 10 ^ 18 :=
      Nat.pow_le_pow_right (by norm_num) hk
    rw [cutoff_eq]
    omega
  rw [p64loop_ok_iff s 0 none 0 hinv]
  constructor
  · rintro ⟨h1, h2, -⟩
    exact ⟨h1, h2 rfl⟩
  · rintro ⟨h1, h2⟩
    exact ⟨h1, fun _ => h2, fun hne => absurd rfl hne⟩

theorem trimZeros_decomp (l : List Char) :
    ∃ k, l = trimZeros l ++ List.replicate k '0' := by
  refine ⟨(l.reverse.takeWhile (fun c => c = '0')).length, ?_⟩
  unfold trimZeros
  conv_lhs => rw [← List.reverse_reverse l,
    ← List.takeWhile_append_dropWhile (fun c => decide (c = '0')) l.reverse]
  rw [List.reverse_append]
  congr 1
  have hall : ∀ b ∈ List.takeWhile (fun c => decide (c = '0')) l.reverse, b = '0' := by
    intro b hb
    have := List.mem_takeWhile_imp hb
    simpa using this
  rw [List.eq_replicate_of_mem hall, List.reverse_replicate, List.length_replicate]

theorem trimZeros_getLast (l : List Char) :
    (trimZeros l).getLast? ≠ some '0' := by
  unfold trimZeros at *
  rw [List.getLast?_reverse]
  have hh := List.head?_dropWhile_not (fun c => decide (c = '0')) l.reverse
  intro hcon
  rw [hcon] at hh
  simp at hh

theorem trimZeros_subset (l : List Char) : ∀ c ∈ trimZeros l, c ∈ l := by
  intro c hc
  unfold trimZeros at hc
  rw [List.mem_reverse] at hc
  have := List.dropWhile_subset (p := fun c => decide (c = '0')) (l := l.reverse) hc
  rwa [List.mem_reverse] at this

/-- The fractional-part suffix after the first dot of a rendered string. -/
def afterDot (l : List Char) : List Char :=
  (l.dropWhile (fun c => c != '.')).tail

theorem afterDot_append (pre fr : List Char) (h : ∀ c ∈ pre, c ≠ '.') :
    afterDot (pre ++ '.' :: fr) = fr := by
  induction pre with
  | nil =>
    unfold afterDot
    rw [List.nil_append, List.dropWhile_cons]
    norm_num
  | cons c t ih =>
    unfold afterDot at *
    rw [List.cons_append, List.dropWhile_cons]
    have hc : (c != '.') = true := by
      have := h c (List.mem_cons_self c t)
      simpa using this
    rw [hc]
    simp only [ite_true]
    exact ih (fun x hx => h x (List.mem_cons_of_mem c hx))

namespace Decimal

/-- `format` with a non-negative exponent ignores the trim flag and renders
the rescaled integral value. -/
theorem format_intbranch (d : Decimal) (h : 0 ≤ d.exp) (b : Bool) :
    d.format b = intRepr (d.rescale 0).value := by
  unfold format
  rw [if_pos h]

theorem intRepr_charset (v : Int) :
    ∀ c ∈ intRepr v, isDig c = true ∨ c = '-' := by
  intro c hc
  unfold intRepr at hc
  rw [List.mem_append] at hc
  rcases hc with hc | hc
  · split_ifs at hc
    · rw [List.mem_singleton] at hc
      exact Or.inr hc
    · simp at hc
  · exact Or.inl (decDigits_all_digit _ c hc)

/-- Structure of `format` for a negative exponent: an optional sign, a
non-empty integral digit run, and a fractional digit run of exactly
`-exp` digits (trimmed only when the flag is set); the concatenated digit
runs spell out `|value|`. -/
theorem format_negbranch (d : Decimal) (h : d.exp < 0) :
    ∃ sign ip fp : List Char,
      (if d.value < 0 then sign = ['-'] else sign = []) ∧
      ip ≠ [] ∧ (∀ c ∈ ip, isDig c = true) ∧ (∀ c ∈ fp, isDig c = true) ∧
      fp.length = (-d.exp).toNat ∧
      digitsToNat (ip ++ fp) = d.value.natAbs ∧
      d.format false = sign ++ ip ++ ('.' :: fp) ∧
      d.format true = sign ++ ip ++
        (if 0 < (trimZeros fp).length then '.' :: trimZeros fp else []) := by
  have hfe : 0 < (-d.exp).toNat := by omega
  refine ⟨if d.value < 0 then ['-'] else [],
    (if (-d.exp).toNat < (decDigits d.value.natAbs).length then
      (decDigits d.value.natAbs).take ((decDigits d.value.natAbs).length - (-d.exp).toNat)
    else ['0']),
    (if (-d.exp).toNat < (decDigits d.value.natAbs).length then
      (decDigits d.value.natAbs).drop ((decDigits d.value.natAbs).length - (-d.exp).toNat)
    else List.replicate ((-d.exp).toNat - (decDigits d.value.natAbs).length) '0' ++
      decDigits d.value.natAbs),
    by split_ifs <;> rfl, ?_, ?_, ?_, ?_, ?_, ?_, ?_⟩
  · split_ifs with hc
    · intro hcon
      have := congrArg List.length hcon
      rw [List.length_take] at this
      simp only [List.length_nil] at this
      omega
    · simp
  · split_ifs with hc
    · intro c hcmem
      exact decDigits_all_digit _ c (List.take_subset _ _ hcmem)
    · intro c hcmem
      rw [List.mem_singleton] at hcmem
      rw [hcmem]
      decide
  · split_ifs with hc
    · intro c hcmem
      exact decDigits_all_digit _ c (List.drop_subset _ _ hcmem)
    · intro c hcmem
      rw [List.mem_append] at hcmem
      rcases hcmem with hcmem | hcmem
      · rw [List.eq_of_mem_replicate hcmem]
        decide
      · exact decDigits_all_digit _ c hcmem
  · split_ifs with hc
    · rw [List.length_drop]
      omega
    · rw [List.length_append, List.length_replicate]
      omega
  · split_ifs with hc
    · rw [List.take_append_drop]
      exact digitsToNat_decDigits _
    · rw [show (['0'] : List Char) = List.replicate 1 '0' from rfl,
        ← List.append_assoc, ← List.replicate_add,
        digitsToNat_append, digitsToNat_replicate_zero, digitsToNat_decDigits]
      norm_num
  · unfold format
    rw [if_neg (by omega)]
    simp only [Bool.false_eq_true, if_false]
    split_ifs <;>
      first
        | rfl
        | (exfalso
           rename_i h2
           apply h2
           first
             | (rw [List.length_drop]; omega)
             | (rw [List.length_append, List.length_replicate]; omega))
  · unfold format
    rw [if_neg (by omega)]
    rfl

end Decimal

/-! ## Claim C3: the two formatters and trailing-zero trimming -/

/-- Claim C3, counterexample: at `value 12300, exp -2` the *canonical*
formatter `String` trims the trailing fractional zeros (yielding `"123"`)
while `StringMySQL` renders the stored digits in full (`"123.00"`) — the
exact opposite of the claimed assignment of trimming to the two
formatters. -/
theorem C3_trim_swapped_cex :
    Decimal.String ⟨12300, -2⟩ = "123".toList ∧
    Decimal.StringMySQL ⟨12300, -2⟩ = "123.00".toList ∧
    "123".toList ≠ "123.00".toList := by
  refine ⟨?_, ?_, by decide⟩
  · simp [Vitess.Decimal.String, Vitess.Decimal.format, Vitess.decDigits,
      Vitess.digitChar, Vitess.trimZeros]
  · simp [Vitess.Decimal.StringMySQL, Vitess.Decimal.format, Vitess.decDigits,
      Vitess.digitChar, Vitess.trimZeros]

/-- Claim C3 (amended): `String` (the canonical formatter) is the one that
trims trailing fractional zeros when the exponent is negative, while
`StringMySQL` renders the stored digits at full precision (exactly `-exp`
fractional digits); both rescale exponent ≥ 0 values to integral form
(and then agree), and neither ever emits scientific notation — every
output character is a digit, `'-'`, or `'.'`. -/
theorem C3_formatters (d : Decimal) :
    (0 ≤ d.exp → d.String = d.StringMySQL ∧ '.' ∉ d.String) ∧
    (d.exp < 0 → '.' ∈ d.StringMySQL ∧
      (afterDot d.StringMySQL).length = (-d.exp).toNat) ∧
    (d.exp < 0 → '.' ∈ d.String → d.String.getLast? ≠ some '0') ∧
    (∀ c ∈ d.String, isDig c = true ∨ c = '-' ∨ c = '.') ∧
    (∀ c ∈ d.StringMySQL, isDig c = true ∨ c = '-' ∨ c = '.') := by
  by_cases hexp : 0 ≤ d.exp
  · have h1 := Decimal.format_intbranch d hexp true
    have h2 := Decimal.format_intbranch d hexp false
    have hcs : ∀ c ∈ d.String, isDig c = true ∨ c = '-' ∨ c = '.' := by
      intro c hc
      rw [Decimal.String, h1] at hc
      rcases Decimal.intRepr_charset _ c hc with h | h
      · exact Or.inl h
      · exact Or.inr (Or.inl h)
    have hnd : '.' ∉ d.String := by
      intro hc
      rw [Decimal.String, h1] at hc
      rcases Decimal.intRepr_charset _ '.' hc with h | h
      · exact absurd h (by decide)
      · exact absurd h (by decide)
    refine ⟨fun _ => ⟨by rw [Decimal.String, Decimal.StringMySQL, h1, h2], hnd⟩,
      fun hneg => absurd hneg (by omega), fun hneg => absurd hneg (by omega), hcs, ?_⟩
    intro c hc
    rw [Decimal.StringMySQL, h2] at hc
    rcases Decimal.intRepr_charset _ c hc with h | h
    · exact Or.inl h
    · exact Or.inr (Or.inl h)
  · push_neg at hexp
    obtain ⟨sign, ip, fp, hsg, hip, hipd, hfpd, hfl, hval, hfalse, htrue⟩ :=
      Decimal.format_negbranch d hexp
    have hsigncs : ∀ c ∈ sign, c = '-' := by
      intro c hc
      by_cases hv : d.value < 0
      · rw [if_pos hv] at hsg
        rw [hsg, List.mem_singleton] at hc
        exact hc
      · rw [if_neg hv] at hsg
        rw [hsg] at hc
        simp at hc
    have hprenodot : ∀ c ∈ sign ++ ip, c ≠ '.' := by
      intro c hc
      rw [List.mem_append] at hc
      rcases hc with hc | hc
      · rw [hsigncs c hc]
        decide
      · have := hipd c hc
        intro hcon
        rw [hcon] at this
        exact absurd this (by decide)
    refine ⟨fun hpos => absurd hpos (by omega), fun _ => ⟨?_, ?_⟩,
      fun _ hdot => ?_, ?_, ?_⟩
    · rw [Decimal.StringMySQL, hfalse, List.mem_append]
      exact Or.inr (List.mem_cons_self _ _)
    · rw [Decimal.StringMySQL, hfalse, afterDot_append _ _ hprenodot, hfl]
    · rw [Decimal.String, htrue] at hdot ⊢
      by_cases htrim : 0 < (trimZeros fp).length
      · rw [if_pos htrim] at hdot ⊢
        have hne : trimZeros fp ≠ [] := by
          intro hcon
          rw [hcon] at htrim
          simp at htrim
        have hlast := trimZeros_getLast fp
        rcases htz : trimZeros fp with _ | ⟨x, xs⟩
        · exact absurd htz hne
        · rw [List.getLast?_append, List.getLast?_cons_cons]
          rcases hl2 : (x :: xs).getLast? with _ | z
          · rw [List.getLast?_eq_none_iff] at hl2
            exact absurd hl2 (by simp)
          · rw [htz, hl2] at hlast
            exact hlast
      · rw [if_neg htrim] at hdot
        rw [List.mem_append] at hdot
        rcases hdot with hdot | hdot
        · rw [List.mem_append] at hdot
          rcases hdot with hdot | hdot
          · have := hsigncs '.' hdot
            exact absurd this (by decide)
          · have := hipd '.' hdot
            exact absurd this (by decide)
        · simp at hdot
    · intro c hc
      rw [Decimal.String, htrue, List.mem_append] at hc
      rcases hc with hc | hc
      · rw [List.mem_append] at hc
        rcases hc with hc | hc
        · exact Or.inr (Or.inl (hsigncs c hc))
        · exact Or.inl (hipd c hc)
      · split_ifs at hc
        · rw [List.mem_cons] at hc
          rcases hc with hc | hc
          · exact Or.inr (Or.inr hc)
          · exact Or.inl (hfpd c (trimZeros_subset fp c hc))
        · simp at hc
    · intro c hc
      rw [Decimal.StringMySQL, hfalse, List.mem_append] at hc
      rcases hc with hc | hc
      · rw [List.mem_append] at hc
        rcases hc with hc | hc
        · exact Or.inr (Or.inl (hsigncs c hc))
        · exact Or.inl (hipd c hc)
      · rw [List.mem_cons] at hc
        rcases hc with hc | hc
        · exact Or.inr (Or.inr hc)
        · exact Or.inl (hfpd c hc)

/-- Witness for C3: the formatter properties evaluated at the concrete
decimal 12.050 (value 12050, exponent -3): MySQL form keeps all 3
fractional digits, the canonical form never ends in a trailing zero. -/
theorem C3_formatters_witness :
    '.' ∈ Decimal.StringMySQL ⟨12050, -3⟩ ∧
    (afterDot (Decimal.StringMySQL ⟨12050, -3⟩)).length = 3 ∧
    (Decimal.String ⟨12050, -3⟩).getLast? ≠ some '0' := by
  have h := C3_formatters ⟨12050, -3⟩
  have hdotStr : '.' ∈ Decimal.String ⟨12050, -3⟩ := by
    have hs : Decimal.String ⟨12050, -3⟩ = "12.05".toList := by
      simp [Vitess.Decimal.String, Vitess.Decimal.format, Vitess.decDigits,
        Vitess.digitChar, Vitess.trimZeros]
    rw [hs]; decide
  refine ⟨(h.2.1 (by decide)).1, ?_, h.2.2.1 (by decide) hdotStr⟩
  rw [(h.2.1 (by decide)).2]
  decide

/-- Claim C7 (amended): within the fast-path gate — which the code keys on
the BYTE length of the unsigned remainder (dot included), not on the digit
run — 64-bit accumulation overflow is impossible (so the overflow fallback
is dead code there), and on every well-formed input (digits and at most one
dot, at least one digit) the fast path and the arbitrary-precision fallback
produce exactly the same Decimal. -/
theorem C7_fastpath (s : List Char) (hlen : s.length ≤ 18) :
    parseDecimal64 s ≠ .error .overflow ∧
    ((∀ c ∈ s, isDig c = true ∨ c = '.') → s.count '.' ≤ 1 →
      (∃ c ∈ s, isDig c = true) →
      ∃ d, parseDecimal64 s = .ok d ∧ slowPath s s false = .ok d) := by
  refine ⟨parseDecimal64_no_overflow s hlen, ?_⟩
  intro hwf hcnt hdig
  rcases wf_decomp s hwf hcnt with hall | ⟨a, b, rfl, ha, hb⟩
  · obtain ⟨c0, hc0, -⟩ := hdig
    have hne : s ≠ [] := by
      intro h
      rw [h] at hc0
      exact absurd hc0 (List.not_mem_nil c0)
    have hcut : digitsToNat s < cutoff := by
      have h1 := digitsToNat_lt s hall
      have h2 : (10 : Nat) ^ s.length ≤ 10 ^ 18 :=
        Nat.pow_le_pow_right (by norm_num) hlen
      rw [cutoff_eq]
      omega
    refine ⟨⟨(digitsToNat s : Int), 0⟩, parseDecimal64_digits s hall hcut, ?_⟩
    rw [slowPath_digits s s false hne hall]
    rfl
  · have hlens : a.length + b.length ≤ 17 := by
      rw [List.length_append, List.length_cons] at hlen
      omega
    have hallab : ∀ c ∈ a ++ b, isDig c = true := by
      intro c hc
      rcases List.mem_append.mp hc with h | h
      · exact ha c h
      · exact hb c h
    have hcut : digitsToNat (a ++ b) < cutoff := by
      have h1 := digitsToNat_lt (a ++ b) hallab
      have h2 : (10 : Nat) ^ (a ++ b).length ≤ 10 ^ 17 := by
        refine Nat.pow_le_pow_right (by norm_num) ?_
        rw [List.length_append]
        omega
      rw [cutoff_eq]
      omega
    have habne : a ++ b ≠ [] := by
      obtain ⟨c0, hc0, hc0d⟩ := hdig
      intro hcon
      rcases List.mem_append.mp hc0 with h | h
      · rw [List.append_eq_nil] at hcon
        rw [hcon.1] at h
        exact absurd h (List.not_mem_nil c0)
      · rcases List.mem_cons.mp h with h | h
        · exact absurd h (isDig_ne_dot hc0d)
        · rw [List.append_eq_nil] at hcon
          rw [hcon.2] at h
          exact absurd h (List.not_mem_nil c0)
    refine ⟨⟨(digitsToNat (a ++ b) : Int), -(b.length : Int)⟩,
      parseDecimal64_dotted a b ha hb hcut (by unfold i32bound; omega), ?_⟩
    rw [slowPath_dotted _ a b false ha hb habne]
    rw [toInt32_neg_toInt32 (by positivity) (by unfold i32bound; omega)]
    rfl

/-- Witness for C7: the 19-byte claim boundary aside, the concrete input
`"12.3"` parses identically on both paths and cannot overflow. -/
theorem C7_fastpath_witness :
    parseDecimal64 "12.3".toList ≠ .error .overflow ∧
    ∃ d, parseDecimal64 "12.3".toList = .ok d ∧
      slowPath "12.3".toList "12.3".toList false = .ok d := by
  have h := C7_fastpath "12.3".toList (by decide)
  exact ⟨h.1, h.2 (by decide) (by decide) (by decide)⟩

/-- Claim C10 (amended): the acceptance condition of `NewFromMySQL`.  Every
error echoes the original input; an empty remainder after one optional sign
is rejected as too short; a remainder of at most 18 bytes is accepted iff it
consists of digits and dots with at most one dot (no digit required — `"."`
is accepted); a longer remainder is accepted iff it has at most one dot and,
after deleting that dot, is a non-empty digit run optionally preceded by ONE
MORE sign byte (so e.g. a long `--digits` input is accepted). -/
theorem C10_grammar (input : List Char) :
    (∀ e, NewFromMySQL input = .error e → ∃ pre post, e = pre ++ input ++ post) ∧
    ((stripSign input).2 = [] → NewFromMySQL input = .error (msgTooShort input)) ∧
    (∀ s, (stripSign input).2 = s → s ≠ [] → s.length ≤ 18 →
      ((NewFromMySQL input).isOk = true ↔
        (∀ c ∈ s, isDig c = true ∨ c = '.') ∧ s.count '.' ≤ 1)) ∧
    (∀ s, (stripSign input).2 = s → 18 < s.length →
      ((NewFromMySQL input).isOk = true ↔
        ∃ t, ((dotIndex s = none ∧ t = s) ∨
              (∃ p, dotIndex s = some p ∧ '.' ∉ s.drop (p + 1) ∧
                t = s.take p ++ s.drop (p + 1))) ∧
          ((t ≠ [] ∧ ∀ c ∈ t, isDig c = true) ∨
           (∃ c rest, t = c :: rest ∧ (c = '+' ∨ c = '-') ∧ rest ≠ [] ∧
             ∀ c2 ∈ rest, isDig c2 = true)))) := by
  rcases hns : stripSign input with ⟨neg, s0⟩
  have hmain := NewFromMySQL_eq input neg s0 hns
  by_cases h0 : s0.length = 0
  · rw [if_pos h0] at hmain
    refine ⟨?_, fun _ => hmain, ?_, ?_⟩
    · intro e he
      rw [hmain] at he
      have hee : e = msgTooShort input := (Except.error.inj he).symm
      exact ⟨"can't convert \x22".toList, "\x22 to decimal: too short".toList,
        by rw [hee]; rfl⟩
    · intro s hs hne _
      have hs0 : s0 = s := hs
      rw [List.length_eq_zero] at h0
      exact absurd (hs0 ▸ h0).symm (Ne.symm hne)
    · intro s hs hgt
      have hs0 : s0 = s := hs
      rw [← hs0] at hgt
      omega
  · rw [if_neg h0] at hmain
    by_cases hL : s0.length ≤ 18
    · rw [if_pos hL] at hmain
      have hwfiff := parseDecimal64_wf_iff s0 hL
      rcases hp : parseDecimal64 s0 with e | dec
      · have hnov : e ≠ P64Err.overflow := by
          intro hcon
          exact parseDecimal64_no_overflow s0 hL (hcon ▸ hp)
        have hmain2 : NewFromMySQL input = .error (msgWrap input e) := by
          rw [hmain, hp]
          rcases e with _ | c | _
          · rfl
          · rfl
          · exact absurd rfl hnov
        have hnotok : ¬ ((∀ c ∈ s0, isDig c = true ∨ c = '.') ∧
            s0.count '.' ≤ 1) := by
          intro hcon
          have := hwfiff.mpr hcon
          rw [hp] at this
          simp [Except.isOk, Except.toBool] at this
        refine ⟨?_, ?_, ?_, ?_⟩
        · intro e2 he2
          rw [hmain2] at he2
          have hee : e2 = msgWrap input e := (Except.error.inj he2).symm
          refine ⟨"can't convert ".toList,
            " to decimal: ".toList ++ renderP64Err e, ?_⟩
          rw [hee]
          unfold msgWrap
          rw [List.append_assoc ("can't convert ".toList ++ input)]
        · intro hcon
          have : s0 = [] := hcon
          exact absurd (by rw [this]; rfl) h0
        · intro s hs _ _
          have hs0 : s0 = s := hs
          subst hs0
          rw [hmain2]
          constructor
          · intro hcon
            simp [Except.isOk, Except.toBool] at hcon
          · intro hcon
            exact absurd hcon hnotok
        · intro s hs hgt
          have hs0 : s0 = s := hs
          rw [← hs0] at hgt
          omega
      · have hmain2 : NewFromMySQL input =
            .ok (if neg then ⟨-dec.value, dec.exp⟩ else dec) := by
          rw [hmain, hp]
        have hok : (∀ c ∈ s0, isDig c = true ∨ c = '.') ∧ s0.count '.' ≤ 1 := by
          apply hwfiff.mp
          rw [hp]
          rfl
        refine ⟨?_, ?_, ?_, ?_⟩
        · intro e2 he2
          rw [hmain2] at he2
          exact Except.noConfusion he2
        · intro hcon
          have : s0 = [] := hcon
          exact absurd (by rw [this]; rfl) h0
        · intro s hs _ _
          have hs0 : s0 = s := hs
          subst hs0
          rw [hmain2]
          constructor
          · intro _
            exact hok
          · intro _
            rfl
        · intro s hs hgt
          have hs0 : s0 = s := hs
          rw [← hs0] at hgt
          omega
    · rw [if_neg hL] at hmain
      refine ⟨?_, ?_, ?_, ?_⟩
      · intro e2 he2
        rw [hmain] at he2
        exact slowPath_error_echo input s0 neg e2 he2
      · intro hcon
        have : s0 = [] := hcon
        exact absurd (by rw [this]; rfl) h0
      · intro s hs _ hle
        have hs0 : s0 = s := hs
        rw [← hs0] at hle
        exact absurd hle hL
      · intro s hs _
        have hs0 : s0 = s := hs
        subst hs0
        rw [hmain]
        rw [slowPath_ok_iff input s0 neg]
        exact exists_congr (fun t => and_congr_right
          (fun _ => setStringInt_isSome_iff t))

/-- Witness for C10: the acceptance characterization applied to the short
well-formed input `"1.5"` and to the long double-signed input
`"--12345678901234567890"` (both accepted). -/
theorem C10_grammar_witness :
    (NewFromMySQL "1.5".toList).isOk = true ∧
    (NewFromMySQL "--12345678901234567890".toList).isOk = true := by
  constructor
  · exact ((C10_grammar "1.5".toList).2.2.1 "1.5".toList rfl (by decide)
      (by decide)).mpr (by decide)
  · exact ((C10_grammar "--12345678901234567890".toList).2.2.2
      "-12345678901234567890".toList rfl (by decide)).mpr
      ⟨"-12345678901234567890".toList, Or.inl ⟨by decide, rfl⟩,
        Or.inr ⟨'-', "12345678901234567890".toList, rfl, Or.inr rfl,
          by decide, by decide⟩⟩

/-- Claim C8, counterexample: the claim's structural reading fails beyond
zero normalization — the nonzero decimal 1.00 (value 100, exponent -2)
formats as `"1"` (trailing zeros trimmed) and parses back as value 1,
exponent 0: a different representation of the same number. -/
theorem C8_roundtrip_cex :
    NewFromMySQL (Decimal.String ⟨100, -2⟩) = .ok ⟨1, 0⟩ ∧
    (⟨1, 0⟩ : Decimal) ≠ ⟨100, -2⟩ ∧
    Decimal.toRat ⟨1, 0⟩ = Decimal.toRat ⟨100, -2⟩ := by
  have hs : Decimal.String ⟨100, -2⟩ = "1".toList := by
    simp [Vitess.Decimal.String, Vitess.Decimal.format, Vitess.decDigits,
      Vitess.digitChar, Vitess.trimZeros]
  rw [hs]
  refine ⟨by decide, by decide, ?_⟩
  rw [Decimal.toRat_mk, Decimal.toRat_mk]
  norm_num

/-- Claim C8 (amended): for every constructible decimal (int32 exponent),
parsing the canonical formatted text yields a decimal denoting exactly the
same rational number; the representation itself is only preserved up to
renormalization (trailing-zero trimming and flattening of positive
exponents), not structurally. -/
theorem C8_roundtrip (d : Decimal) (h1 : -i32bound ≤ d.exp) (h2 : d.exp < i32bound) :
    ∃ r, NewFromMySQL (Decimal.String d) = .ok r ∧ r.toRat = d.toRat := by
  by_cases hexp : 0 ≤ d.exp
  · have hfmt := Decimal.format_intbranch d hexp true
    have hres : d.rescale 0 = ⟨d.value * 10 ^ (d.exp - 0).toNat, 0⟩ :=
      Decimal.rescale_down d 0 hexp (by omega)
    have hsrw : Decimal.String d = intRepr (d.value * 10 ^ (d.exp - 0).toNat) := by
      rw [Decimal.String, hfmt, hres]
    obtain ⟨neg, hirepr, hvsign⟩ :
        ∃ neg : Bool, intRepr (d.value * 10 ^ (d.exp - 0).toNat) =
          (if neg then ['-'] else []) ++
            decDigits (d.value * 10 ^ (d.exp - 0).toNat).natAbs ∧
          (if neg then -(((d.value * 10 ^ (d.exp - 0).toNat).natAbs : Int))
           else ((d.value * 10 ^ (d.exp - 0).toNat).natAbs : Int)) =
            d.value * 10 ^ (d.exp - 0).toNat := by
      by_cases hv : d.value * 10 ^ (d.exp - 0).toNat < 0
      · refine ⟨true, ?_, ?_⟩
        · unfold intRepr
          rw [if_pos hv]
          rfl
        · rw [if_pos rfl]
          rw [Int.ofNat_natAbs_of_nonpos (le_of_lt hv)]
          ring
      · refine ⟨false, ?_, ?_⟩
        · unfold intRepr
          rw [if_neg hv]
          rfl
        · rw [if_neg (by decide)]
          exact Int.natAbs_of_nonneg (by omega)
    refine ⟨⟨if neg then
        -(digitsToNat (decDigits (d.value * 10 ^ (d.exp - 0).toNat).natAbs) : Int)
      else
        (digitsToNat (decDigits (d.value * 10 ^ (d.exp - 0).toNat).natAbs) : Int),
      0⟩, ?_, ?_⟩
    · rw [hsrw, hirepr]
      exact NewFromMySQL_digits neg _ (decDigits_ne_nil _) (decDigits_all_digit _)
    · rw [Decimal.toRat_mk]
      simp only [digitsToNat_decDigits]
      rw [hvsign]
      unfold Decimal.toRat
      rw [zpow_zero, mul_one]
      push_cast
      congr 1
      rw [← zpow_natCast (10 : ℚ) (d.exp - 0).toNat,
        Int.toNat_of_nonneg (by omega), sub_zero]
  · push_neg at hexp
    obtain ⟨sign, ip, fp, hsg, hip, hipd, hfpd, hfl, hval, -, htrue⟩ :=
      Decimal.format_negbranch d hexp
    obtain ⟨k, hdec⟩ := trimZeros_decomp fp
    have hklen : fp.length = (trimZeros fp).length + k := by
      conv_lhs => rw [hdec]
      rw [List.length_append, List.length_replicate]
    have hsplit : digitsToNat (ip ++ fp) =
        digitsToNat (ip ++ trimZeros fp) * 10 ^ k := by
      conv_lhs => rw [hdec, ← List.append_assoc]
      rw [digitsToNat_append, digitsToNat_replicate_zero,
        List.length_replicate]
      ring
    obtain ⟨neg, hsgn, hvsign⟩ :
        ∃ neg : Bool, sign = (if neg then ['-'] else []) ∧
          (if neg then -((d.value.natAbs : Int)) else ((d.value.natAbs : Int))) =
            d.value := by
      by_cases hv : d.value < 0
      · rw [if_pos hv] at hsg
        refine ⟨true, by rw [hsg]; rfl, ?_⟩
        rw [if_pos rfl]
        rw [Int.ofNat_natAbs_of_nonpos (le_of_lt hv)]
        ring
      · rw [if_neg hv] at hsg
        refine ⟨false, by rw [hsg]; rfl, ?_⟩
        rw [if_neg (by decide)]
        exact Int.natAbs_of_nonneg (by omega)
    have hq10 : ((10 : ℚ) ^ ((trimZeros fp).length : Int)) *
        ((10 : ℚ) ^ k * (10 : ℚ) ^ d.exp) = 1 := by
      rw [← zpow_natCast (10 : ℚ) k, ← ten_zpow_add, ← ten_zpow_add]
      rw [show ((trimZeros fp).length : Int) + ((k : Int) + d.exp) = 0 by
        have hfl2 : ((fp.length : Nat) : Int) = -d.exp := by
          rw [hfl]
          omega
        omega]
      rfl
    by_cases htz : 0 < (trimZeros fp).length
    · rw [if_pos htz] at htrue
      have htzd : ∀ c ∈ trimZeros fp, isDig c = true :=
        fun c hc => hfpd c (trimZeros_subset fp c hc)
      have habne : ip ++ trimZeros fp ≠ [] := by
        intro hcon
        rw [List.append_eq_nil] at hcon
        exact hip hcon.1
      have hblen : ((trimZeros fp).length : Int) ≤ i32bound := by
        have hll : (trimZeros fp).length ≤ fp.length := by omega
        rw [hfl] at hll
        have h3 : ((-d.exp).toNat : Int) = -d.exp := Int.toNat_of_nonneg (by omega)
        unfold i32bound at *
        omega
      have hnat : (digitsToNat (ip ++ trimZeros fp) : ℚ) * 10 ^ k =
          (d.value.natAbs : ℚ) := by
        rw [← hval, hsplit]
        push_cast
        ring
      have hne10 : ((10 : ℚ) ^ (((trimZeros fp).length : Nat) : Int)) ≠ 0 :=
        ten_zpow_ne_zero _
      have hXY : (10 : ℚ) ^ (-(((trimZeros fp).length : Nat) : Int)) =
          (10 : ℚ) ^ k * (10 : ℚ) ^ d.exp := by
        rw [zpow_neg]
        refine mul_left_cancel₀ hne10 ?_
        rw [mul_inv_cancel₀ hne10, hq10]
      refine ⟨⟨if neg then -(digitsToNat (ip ++ trimZeros fp) : Int)
        else (digitsToNat (ip ++ trimZeros fp) : Int),
        -(((trimZeros fp).length : Int))⟩, ?_, ?_⟩
      · rw [Decimal.String, htrue, hsgn, List.append_assoc]
        exact NewFromMySQL_dotted neg ip (trimZeros fp) hipd htzd habne hblen
      · rw [Decimal.toRat_mk]
        unfold Decimal.toRat
        rw [← hvsign]
        cases neg
        · rw [if_neg (by decide), if_neg (by decide)]
          rw [show (((digitsToNat (ip ++ trimZeros fp) : Int)) : ℚ) =
              (digitsToNat (ip ++ trimZeros fp) : ℚ) from Int.cast_natCast _]
          rw [show ((d.value.natAbs : Int) : ℚ) = (d.value.natAbs : ℚ) from
            Int.cast_natCast _]
          rw [hXY]
          linear_combination ((10 : ℚ) ^ d.exp) * hnat
        · rw [if_pos rfl, if_pos rfl]
          rw [show ((-(digitsToNat (ip ++ trimZeros fp) : Int) : Int) : ℚ) =
              -(digitsToNat (ip ++ trimZeros fp) : ℚ) by
              rw [Int.cast_neg, Int.cast_natCast]]
          rw [show ((-(d.value.natAbs : Int) : Int) : ℚ) = -(d.value.natAbs : ℚ) by
            rw [Int.cast_neg, Int.cast_natCast]]
          rw [hXY]
          linear_combination (-((10 : ℚ) ^ d.exp)) * hnat
    · rw [if_neg htz] at htrue
      rw [List.append_nil] at htrue
      have hk0 : (trimZeros fp).length = 0 := by omega
      have hnat : (digitsToNat ip : ℚ) * 10 ^ k = (d.value.natAbs : ℚ) := by
        rw [← hval, hsplit]
        have hipz : digitsToNat (ip ++ trimZeros fp) = digitsToNat ip := by
          rw [List.length_eq_zero.mp hk0, List.append_nil]
        rw [hipz]
        push_cast
        ring
      have hq10b : ((10 : ℚ) ^ k * (10 : ℚ) ^ d.exp) = 1 := by
        have hh := hq10
        rw [hk0] at hh
        simpa using hh
      refine ⟨⟨if neg then -(digitsToNat ip : Int) else (digitsToNat ip : Int), 0⟩,
        ?_, ?_⟩
      · rw [Decimal.String, htrue, hsgn]
        exact NewFromMySQL_digits neg ip hip hipd
      · rw [Decimal.toRat_mk]
        unfold Decimal.toRat
        rw [← hvsign]
        rw [zpow_zero, mul_one]
        cases neg
        · rw [if_neg (by decide), if_neg (by decide)]
          rw [show (((digitsToNat ip : Int)) : ℚ) = (digitsToNat ip : ℚ) from
            Int.cast_natCast _]
          rw [show ((d.value.natAbs : Int) : ℚ) = (d.value.natAbs : ℚ) from
            Int.cast_natCast _]
          linear_combination ((10 : ℚ) ^ d.exp) * hnat +
            (-(digitsToNat ip : ℚ)) * hq10b
        · rw [if_pos rfl, if_pos rfl]
          rw [show ((-(digitsToNat ip : Int) : Int) : ℚ) = -(digitsToNat ip : ℚ) by
            rw [Int.cast_neg, Int.cast_natCast]]
          rw [show ((-(d.value.natAbs : Int) : Int) : ℚ) = -(d.value.natAbs : ℚ) by
            rw [Int.cast_neg, Int.cast_natCast]]
          linear_combination (-((10 : ℚ) ^ d.exp)) * hnat +
            ((digitsToNat ip : ℚ)) * hq10b

/-- Witness for C8: the numeric round-trip at the concrete decimal
12.050 (value 12050, exponent -3). -/
theorem C8_roundtrip_witness :
    ∃ r, NewFromMySQL (Decimal.String ⟨12050, -3⟩) = .ok r ∧
      r.toRat = Decimal.toRat ⟨12050, -3⟩ :=
  C8_roundtrip ⟨12050, -3⟩ (by decide) (by decide)

end Vitess

